import Mathlib

/-!
Verification of the LHOOQ GC/Issy scheduler (src/src/App.tsx).

Shallow embedding conventions:
* JavaScript strings are modelled as `List Char` (`JSStr`); the date strings
  produced by date-fns `format` are opaque day identifiers of that type.
* JavaScript plain objects used as string-keyed records are modelled as
  association lists without duplicate keys; property read is first-match
  lookup, property write updates the first matching binding and appends a
  fresh binding when the key is absent (exactly the observable behaviour of
  a JS record, which can never hold a duplicate key).
* JavaScript numbers are modelled exactly: integer-valued quantities as
  `Int`/`Nat`, the priority scores (which divide preference shares by 100)
  as `ℚ`.  For the magnitudes this program manipulates (shares up to a few
  hundred, day counts below 25) IEEE doubles behave exactly like rationals
  in every comparison the code performs.
* The Calendar Expander (`eachDayOfInterval` + `isBusinessDay`, date-fns
  library code) is modelled by passing the resulting ordered business-day
  list `monthDays` directly to the engine; the engine itself never inspects
  the anatomy of a date.
* `Array.prototype.sort` with comparator `(a, b) => key b - key a` is a
  stable descending sort; it is modelled by a stable insertion sort
  (`sortByDesc`), which produces the identical ordering.
-/

/-- JS strings as character lists. -/
abbrev JSStr := List Char

/-- Characters of a Lean string literal, used to write JS string constants. -/
def chars (s : String) : JSStr := s.toList

/-- ISO date string (yyyy-MM-dd) identifying a business day. -/
abbrev Day := JSStr

/-- Person identifier (the `id` field of a roster entry). -/
abbrev PersonId := JSStr

/-- Percentage preference shares of a roster person (`prefs` in PEOPLE). -/
structure Prefs where
  gcShare : Int
  issyShare : Int
  remoteShare : Int
deriving DecidableEq, Repr

/-- A roster entry from the PEOPLE configuration. -/
structure Person where
  id : PersonId
  name : JSStr
  prefs : Prefs
deriving DecidableEq, Repr

/-- The four location tags a schedule cell can hold (SITES keys). -/
inductive Site where
  | GC
  | ISSY
  | REMOTE
  | OOO
deriving DecidableEq, Repr

/-- GC desk capacity (SITES.GC.capacity). -/
def SITES_GC_capacity : Nat := 5

/-- Issy desk capacity (SITES.ISSY.capacity). -/
def SITES_ISSY_capacity : Nat := 12

/-- One day row of the plan: JS record personId -> siteId. -/
abbrev Row := List (PersonId × Site)

/-- The schedule table: JS record isoDate -> row. -/
abbrev Plan := List (Day × Row)

/-- The oooData input: JS record personId -> list of absent iso dates. -/
abbrev OOOData := List (PersonId × List Day)

/-- Per-person running/target day counts ({ gc, issy, remote } objects). -/
structure Counters where
  gc : Int
  issy : Int
  remote : Int
deriving DecidableEq, Repr

/-- JS record read `row[k]` (first binding wins; absent key reads undefined). -/
def recordGet : Row → PersonId → Option Site
  | [], _ => none
  | c :: rest, k => if c.1 = k then some c.2 else recordGet rest k

/-- JS record write `row[k] = v` (update the binding if present, else append). -/
def recordSet : Row → PersonId → Site → Row
  | [], k, v => [(k, v)]
  | c :: rest, k, v => if c.1 = k then (k, v) :: rest else c :: recordSet rest k v

/-- JS record read `plan[d]`. -/
def planGet : Plan → Day → Option Row
  | [], _ => none
  | e :: rest, d => if e.1 = d then some e.2 else planGet rest d

/-- In-place mutation of the row stored at an existing key `d` of the plan
(`plan[d] = f(plan[d])` guarded by `if (plan[d])`); a missing key leaves the
plan unchanged. -/
def planModify : Plan → Day → (Row → Row) → Plan
  | [], _, _ => []
  | e :: rest, d, f => if e.1 = d then (d, f e.2) :: rest else e :: planModify rest d f

/-- Read of one schedule cell, `plan[d]?.[k]`. -/
def planCell (plan : Plan) (d : Day) (k : PersonId) : Option Site :=
  (planGet plan d).bind (fun row => recordGet row k)

/-- Functional model of the mutable `actualDays` record: every person id is
mapped to its running counters. -/
abbrev Actual := PersonId → Counters

/-- Point update of one person's counters (`actualDays[pid] = f(...)`). -/
def updateActual (a : Actual) (pid : PersonId) (f : Counters → Counters) : Actual :=
  fun k => if k = pid then f (a k) else a k

/-- Lookup `oooData[pid]` with missing keys read as the empty list (the code
only ever uses it through the optional chain `oooData[pid]?.includes(iso)`,
for which a missing key behaves like an empty list). -/
def oooDates (oooData : OOOData) (pid : PersonId) : List Day :=
  (List.lookup pid oooData).getD []

/-- Stable insertion into a list sorted by strictly descending key: the new
element goes in front of the first element whose key is not larger. -/
def orderedInsertDesc {α : Type} (pri : α → ℚ) (x : α) : List α → List α
  | [] => [x]
  | y :: ys => if pri y ≤ pri x then x :: y :: ys else y :: orderedInsertDesc pri x ys

/-- Stable descending sort, the model of the JS stable
`array.sort((a, b) => pri(b) - pri(a))`. -/
def sortByDesc {α : Type} (pri : α → ℚ) (l : List α) : List α :=
  l.foldr (orderedInsertDesc pri) []

/-- Occupancy count of one site tag in a day row (`dayUsage(iso)[site]`,
implemented in the source as a reduce over `Object.values(row)`). -/
def dayUsage (row : Row) (s : Site) : Nat :=
  (row.filter (fun c => decide (c.2 = s))).length

/-- calculateGCPriority from App.tsx: deficit times two plus base preference. -/
def calculateGCPriority (person : Person) (actual target : Counters) : ℚ :=
  let deficit : ℚ := (target.gc : ℚ) - (actual.gc : ℚ)
  let basePreference : ℚ := (person.prefs.gcShare : ℚ) / 100
  deficit * 2 + basePreference

/-- calculateIssyPriority from App.tsx. -/
def calculateIssyPriority (person : Person) (actual target : Counters) : ℚ :=
  let deficit : ℚ := (target.issy : ℚ) - (actual.issy : ℚ)
  let basePreference : ℚ := (person.prefs.issyShare : ℚ) / 100
  deficit * 2 + basePreference

/-- calculateRemotePriority from App.tsx. -/
def calculateRemotePriority (person : Person) (actual target : Counters) : ℚ :=
  let deficit : ℚ := (target.remote : ℚ) - (actual.remote : ℚ)
  let basePreference : ℚ := (person.prefs.remoteShare : ℚ) / 100
  deficit * 2 + basePreference

/-- JS `Math.round` on an exact rational: round half toward positive
infinity. -/
def jsRound (q : ℚ) : Int :=
  ⌊q + 1 / 2⌋

/-- Initial plan of a generation run: one row per month business day, every
roster person set to REMOTE. -/
def initialPlan (monthDays : List Day) (people : List Person) : Plan :=
  monthDays.map (fun d => (d, people.map (fun p => (p.id, Site.REMOTE))))

/-- One OOO date of one oooData entry applied to the plan
(`if (plan[iso]) plan[iso][personId] = 'OOO'`). -/
def oooDateStep (personId : PersonId) (pl : Plan) (iso : Day) : Plan :=
  planModify pl iso (fun row => recordSet row personId Site.OOO)

/-- Phase "Apply OOO first": for every entry of oooData and every listed
date, set that cell to OOO when the date is a row of the plan. -/
def applyOOO (plan : Plan) (oooData : OOOData) : Plan :=
  oooData.foldl (fun pl e => e.2.foldl (oooDateStep e.1) pl) plan

/-- One person of the BubbleLux forEach applied to a row
(`if (plan[iso][p.id] !== 'OOO') plan[iso][p.id] = 'ISSY'`). -/
def bubbleStep (r : Row) (p : Person) : Row :=
  if recordGet r p.id ≠ some Site.OOO then recordSet r p.id Site.ISSY else r

/-- One BubbleLux day applied to a row: every person whose cell is not OOO
is moved to ISSY. -/
def bubbleRow (people : List Person) (row : Row) : Row :=
  people.foldl bubbleStep row

/-- One BubbleLux date applied to the plan (skipped when the date is not a
key of the plan, the `if (!plan[iso]) return` guard). -/
def bubbleDayStep (people : List Person) (pl : Plan) (iso : Day) : Plan :=
  if (planGet pl iso).isSome then planModify pl iso (fun row => bubbleRow people row)
  else pl

/-- Phase "Apply BubbleLux (all at Issy)". -/
def applyBubbleLux (plan : Plan) (bubbleLuxDates : List Day) (people : List Person) : Plan :=
  bubbleLuxDates.foldl (bubbleDayStep people) plan

/-- Number of available (non-OOO) month business days of a person. -/
def availableDaysCount (monthDays : List Day) (oooData : OOOData) (p : Person) : Nat :=
  (monthDays.filter (fun d => !((oooDates oooData p.id).contains d))).length

/-- Phase "Calculate target days": percentage preferences scaled by the
person's available days, rounded, remote as the residual. -/
def targetDaysFor (monthDays : List Day) (oooData : OOOData) (p : Person) : Counters :=
  let availableDays : Int := (availableDaysCount monthDays oooData p : Int)
  let gcTarget := jsRound ((p.prefs.gcShare : ℚ) / 100 * (availableDays : ℚ))
  let issyTarget := jsRound ((p.prefs.issyShare : ℚ) / 100 * (availableDays : ℚ))
  let remoteTarget := availableDays - gcTarget - issyTarget
  { gc := gcTarget, issy := issyTarget, remote := remoteTarget }

/-- Phase "Track actual assignments": counters start at zero except that the
issy counter is seeded with the number of BubbleLux dates on which the
person is not absent. -/
def initialActual (bubbleLuxDates : List Day) (oooData : OOOData) : Actual :=
  fun pid =>
    { gc := 0,
      issy := ((bubbleLuxDates.filter (fun iso => !((oooDates oooData pid).contains iso))).length : Int),
      remote := 0 }

/-- Step 1 candidate list: still-REMOTE people paired with their GC
priority, sorted stably by descending priority. -/
def gcCandidates (people : List Person) (target : Person → Counters) (row : Row) (act : Actual) :
    List (Person × ℚ) :=
  sortByDesc (fun c => c.2)
    ((people.filter (fun p => decide (recordGet row p.id = some Site.REMOTE))).map
      (fun p => (p, calculateGCPriority p (act p.id) (target p))))

/-- Bump of the gc counter used by steps 1 and 1.5. -/
def bumpGC (c : Counters) : Counters :=
  { c with gc := c.gc + 1 }

/-- Step 1 assignment loop: walk the candidates in rank order, stop (break)
as soon as GC is at capacity, assign a candidate only when its priority is
strictly positive. -/
def gcAssignLoop : List (Person × ℚ) → Row → Actual → Row × Actual
  | [], row, act => (row, act)
  | c :: rest, row, act =>
    if SITES_GC_capacity ≤ dayUsage row Site.GC then (row, act)
    else if 0 < c.2 then
      gcAssignLoop rest (recordSet row c.1.id Site.GC) (updateActual act c.1.id bumpGC)
    else gcAssignLoop rest row act

/-- Step 1.5 candidate list: still-REMOTE people sorted stably by
descending GC priority. -/
def availableForGC (people : List Person) (target : Person → Counters) (row : Row) (act : Actual) :
    List Person :=
  sortByDesc (fun p => calculateGCPriority p (act p.id) (target p))
    (people.filter (fun p => decide (recordGet row p.id = some Site.REMOTE)))

/-- One assignment of the step 1.5 top-up loop: put the person at GC and
bump the gc counter. -/
def topUpStep (st : Row × Actual) (p : Person) : Row × Actual :=
  (recordSet st.1 p.id Site.GC, updateActual st.2 p.id bumpGC)

/-- Step 1.5: when GC is occupied but below three people, top it up with the
best-ranked available people (at most `3 - count` of them, ignoring the
positive-priority gate). -/
def gcFloorTopUp (people : List Person) (target : Person → Counters) (row : Row) (act : Actual) :
    Row × Actual :=
  let currentGCCount := dayUsage row Site.GC
  if 0 < currentGCCount ∧ currentGCCount < 3 then
    let additionalNeeded := 3 - currentGCCount
    ((availableForGC people target row act).take additionalNeeded).foldl topUpStep (row, act)
  else (row, act)

/-- One routing decision of step 2 for a single person: Issy when the Issy
priority strictly beats the remote priority and Issy is below capacity,
remote otherwise; the matching counter is updated either way. -/
def routeStep (target : Person → Counters) (st : Row × Actual) (p : Person) : Row × Actual :=
  let issyPriority := calculateIssyPriority p (st.2 p.id) (target p)
  let remotePriority := calculateRemotePriority p (st.2 p.id) (target p)
  if issyPriority > remotePriority ∧ dayUsage st.1 Site.ISSY < SITES_ISSY_capacity then
    (recordSet st.1 p.id Site.ISSY,
     updateActual st.2 p.id (fun c => { c with issy := c.issy + 1 }))
  else
    (recordSet st.1 p.id Site.REMOTE,
     updateActual st.2 p.id (fun c => { c with remote := c.remote + 1 }))

/-- Step 2: route every still-REMOTE person to Issy when the Issy priority
strictly beats the remote priority and Issy is below capacity, otherwise to
remote, updating the matching counter. -/
def issyRemoteRoute (people : List Person) (target : Person → Counters) (row : Row) (act : Actual) :
    Row × Actual :=
  (people.filter (fun p => decide (recordGet row p.id = some Site.REMOTE))).foldl
    (routeStep target) (row, act)

/-- Step 3: if exactly one person ends the day at Issy, move that person to
remote and roll the counters back. -/
def loneIssyFix (row : Row) (act : Actual) : Row × Actual :=
  match row.filter (fun c => decide (c.2 = Site.ISSY)) with
  | [c] =>
    (recordSet row c.1 Site.REMOTE,
     updateActual act c.1 (fun x => { x with issy := x.issy - 1, remote := x.remote + 1 }))
  | _ => (row, act)

/-- The per-day body of the generation loop (steps 1, 1.5, 2 and 3 of the
source, for a day that is not a BubbleLux day). -/
def processDay (people : List Person) (target : Person → Counters) (row : Row) (act : Actual) :
    Row × Actual :=
  let s1 := gcAssignLoop (gcCandidates people target row act) row act
  let s15 := gcFloorTopUp people target s1.1 s1.2
  let s2 := issyRemoteRoute people target s15.1 s15.2
  loneIssyFix s2.1 s2.2

/-- The `monthDays.forEach` day loop.  The plan's keys are exactly the month
business days in calendar order, so mutating `plan[iso]` for each non-skipped
`iso` is embedded as a structural traversal of the plan that threads the
`actualDays` state left to right; BubbleLux days are skipped. -/
def runDays (people : List Person) (target : Person → Counters) (bubbleLuxDates : List Day) :
    Plan → Actual → Plan × Actual
  | [], act => ([], act)
  | e :: rest, act =>
    if bubbleLuxDates.contains e.1 then
      let r := runDays people target bubbleLuxDates rest act
      (e :: r.1, r.2)
    else
      let s := processDay people target e.2 act
      let r := runDays people target bubbleLuxDates rest s.2
      ((e.1, s.1) :: r.1, r.2)

/-- Result shape of generateSchedule: `Dollar plan, days Dollar`. -/
structure Schedule where
  plan : Plan
  days : List Day
deriving DecidableEq, Repr

/-- generateSchedule from App.tsx (lines 55-186).  `monthDays` is the
ordered business-day expansion of the month anchor (see the header comment);
the remaining arguments are the bubbleLuxDates, oooData and people inputs. -/
def generateSchedule (monthDays bubbleLuxDates : List Day) (oooData : OOOData)
    (people : List Person) : Schedule :=
  let plan0 := initialPlan monthDays people
  let plan1 := applyOOO plan0 oooData
  let plan2 := applyBubbleLux plan1 bubbleLuxDates people
  let target := targetDaysFor monthDays oooData
  let act0 := initialActual bubbleLuxDates oooData
  let r := runDays people target bubbleLuxDates plan2 act0
  { plan := r.1, days := monthDays }

/-- JS `s.split(sep)` for a single-character separator. -/
def splitC (sep : Char) : JSStr → List JSStr
  | [] => [[]]
  | c :: rest =>
    match splitC sep rest with
    | [] => if c = sep then [[], []] else [[c]]
    | h :: t => if c = sep then [] :: h :: t else (c :: h) :: t

/-- JS `parts.join(sep)` for a single-character separator. -/
def joinC (sep : Char) : List JSStr → JSStr
  | [] => []
  | [l] => l
  | l :: rest => l ++ sep :: joinC sep rest

/-- Whitespace test for the model of JS `trim`. -/
def isWS (c : Char) : Bool :=
  c = ' ' || c = '\t' || c = '\n' || c = '\r'

/-- JS `s.trim()`. -/
def trimC (s : JSStr) : JSStr :=
  ((s.dropWhile isWS).reverse.dropWhile isWS).reverse

/-- Helper of the substring test: does `pat` occur at the front of `s`. -/
def jsStartsWith : JSStr → JSStr → Bool
  | _, [] => true
  | [], _ :: _ => false
  | a :: s, b :: p => a = b && jsStartsWith s p

/-- JS `s.includes(pat)` (substring containment). -/
def jsIncludes (s pat : JSStr) : Bool :=
  match s with
  | [] => pat.isEmpty
  | _ :: rest => jsStartsWith s pat || jsIncludes rest pat

/-- The persisted application state the CSV features read and write
(useScheduleData): the month anchor, the per-month BubbleLux record, the
plan, the absence record and the business-day list. -/
structure AppState where
  monthISO : Day
  bubbleLux : List (Day × List Day)
  plan : Plan
  oooData : OOOData
  days : List Day
deriving DecidableEq, Repr

/-- What parseCSV returns: a plan, an (always empty) bubbleLux record and
the business-day list. -/
structure ImportResult where
  plan : Plan
  bubbleLux : List (Day × List Day)
  days : List Day
deriving DecidableEq, Repr

/-- Human-readable column label of a business day in the export header
(date-fns `format(d, 'EEE d MMM')`), modelled as the day identifier itself;
parseCSV skips the header row, so the label text is never interpreted. -/
def dayHeaderLabel (d : Day) : JSStr := d

/-- Full text form of a BubbleLux date in the export trailer (date-fns
`format(date, 'EEEE d MMMM yyyy')`), modelled as the day identifier itself;
parseCSV stops at the preceding "BubbleLux Days:" line, so this text is
never interpreted either. -/
def dayFullLabel (d : Day) : JSStr := d

/-- Location label written to the CSV for one cell (the nested conditional
in generateCSV; both REMOTE and OOO print as Remote). -/
def siteLabel (s : Site) : JSStr :=
  match s with
  | Site.GC => chars ("Grand-Cerf")
  | Site.ISSY => chars ("Issy")
  | _ => chars ("Remote")

/-- generateCSV from App.tsx (lines 662-694): header row, one row per
person with a label per business day (missing cells read as REMOTE), and an
optional BubbleLux trailer. -/
def generateCSV (state : AppState) (businessDays : List Day) (people : List Person) : JSStr :=
  let header := joinC (',') ((chars ("Person")) :: businessDays.map dayHeaderLabel)
  let rows := people.map (fun person =>
    joinC (',') (person.name :: businessDays.map (fun day =>
      siteLabel ((planCell state.plan day person.id).getD Site.REMOTE))))
  let monthBubbleLux := (List.lookup state.monthISO state.bubbleLux).getD []
  let lines := (header :: rows) ++
    (if 0 < monthBubbleLux.length then
      [[], chars ("BubbleLux Days:")] ++ monthBubbleLux.map dayFullLabel
    else [])
  joinC ('\n') lines

/-- JS record write `plan[d][pid] = s` preceded by `if (!plan[d]) plan[d] = {}`. -/
def planSetCellCreate (plan : Plan) (d : Day) (pid : PersonId) (s : Site) : Plan :=
  match planGet plan d with
  | some _ => planModify plan d (fun row => recordSet row pid s)
  | none => plan ++ [(d, recordSet [] pid s)]

/-- Inner forEach of parseCSV: write one person's row into the plan, one
cell per business day, reading column `dayIndex + 1`; a missing or blank
column falls back to the label Remote, and unknown labels map to REMOTE. -/
def applyPersonRow (parts : List JSStr) (pid : PersonId) :
    List Day → Nat → Plan → Plan
  | [], _, plan => plan
  | day :: ds, dayIndex, plan =>
    let trimmed := ((parts.get? (dayIndex + 1)).map trimC).getD (chars ("Remote"))
    let assignment := if trimmed = [] then chars ("Remote") else trimmed
    let siteId :=
      if assignment = chars ("Grand-Cerf") then Site.GC
      else if assignment = chars ("Issy") then Site.ISSY
      else Site.REMOTE
    applyPersonRow parts pid ds (dayIndex + 1) (planSetCellCreate plan day pid siteId)

/-- Data-row loop of parseCSV: stop (break) at a line that mentions
BubbleLux or has no comma; skip (continue) rows with fewer than two columns
or an unrecognized person name; otherwise apply the row. -/
def parseRows (businessDays : List Day) (people : List Person) :
    List JSStr → Plan → Plan
  | [], plan => plan
  | line :: rest, plan =>
    if jsIncludes line (chars ("BubbleLux")) || !(line.contains (',')) then plan
    else
      let parts := splitC (',') line
      if parts.length < 2 then parseRows businessDays people rest plan
      else
        match people.find? (fun p => decide (p.name = trimC (parts.headD []))) with
        | none => parseRows businessDays people rest plan
        | some person =>
          parseRows businessDays people rest
            (applyPersonRow parts person.id businessDays 0 plan)

/-- parseCSV from App.tsx (lines 696-727): split into non-blank lines,
throw (modelled as none) when fewer than two remain, otherwise parse the
data rows after the header. -/
def parseCSV (csvText : JSStr) (businessDays : List Day) (people : List Person) :
    Option ImportResult :=
  let lines := (splitC ('\n') csvText).filter (fun l => !(trimC l).isEmpty)
  if lines.length < 2 then none
  else some
    { plan := parseRows businessDays people (lines.drop 1) [],
      bubbleLux := [],
      days := businessDays }

/-- importCSV from App.tsx (lines 330-345): on success spread the parsed
result over the prior state; the catch branch only alerts, leaving the
prior state untouched. -/
def importCSV (s : AppState) (csvText : JSStr) (businessDays : List Day)
    (people : List Person) : AppState :=
  match parseCSV csvText businessDays people with
  | none => s
  | some r => { s with plan := r.plan, bubbleLux := r.bubbleLux, days := r.days }

/-- The site a CSV column text parses to in applyPersonRow
(specification-side rendering of the inline trim/default/label-match
computation; used by the round-trip proof). -/
def labelSite (l : JSStr) : Site :=
  let trimmed := trimC l
  let assignment := if trimmed = [] then chars ("Remote") else trimmed
  if assignment = chars ("Grand-Cerf") then Site.GC
  else if assignment = chars ("Issy") then Site.ISSY
  else Site.REMOTE

/-- What a tag becomes after an export/import round trip: GC, ISSY and
REMOTE survive, OOO collapses to REMOTE (the export prints both as the
Remote label). -/
def reimportedTag (s : Site) : Site :=
  match s with
  | Site.GC => Site.GC
  | Site.ISSY => Site.ISSY
  | _ => Site.REMOTE

/-- The site chosen by one step-2 routing decision (specification-side
abbreviation used only by the proofs, read off the if in routeStep). -/
def routeSite (target : Person → Counters) (st : Row × Actual) (p : Person) : Site :=
  if calculateIssyPriority p (st.2 p.id) (target p) >
      calculateRemotePriority p (st.2 p.id) (target p) ∧
      dayUsage st.1 Site.ISSY < SITES_ISSY_capacity then
    Site.ISSY
  else Site.REMOTE

/-! Basic facts about the JS record model. -/

instance : Nonempty Site := ⟨Site.REMOTE⟩

instance : Nonempty (PersonId × Site) := ⟨([], Site.REMOTE)⟩

instance : Nonempty (Day × Row) := ⟨([], [])⟩

theorem recordGet_set_self (row : Row) (k : PersonId) (v : Site) :
    recordGet (recordSet row k v) k = some v := by
  induction row with
  | nil => simp [recordSet, recordGet]
  | cons c rest ih =>
    by_cases h : c.1 = k
    · simp [recordSet, recordGet, h]
    · simp [recordSet, recordGet, h, ih]

theorem recordGet_set_ne (row : Row) {k k' : PersonId} (v : Site) (h : k' ≠ k) :
    recordGet (recordSet row k v) k' = recordGet row k' := by
  induction row with
  | nil => simp [recordSet, recordGet, Ne.symm h]
  | cons c rest ih =>
    by_cases hc : c.1 = k
    · subst hc
      simp [recordSet, recordGet, Ne.symm h]
    · by_cases hc' : c.1 = k'
      · simp [recordSet, recordGet, hc, hc', h]
      · simp [recordSet, recordGet, hc, hc', ih]

theorem recordGet_eq_none_iff (row : Row) (k : PersonId) :
    recordGet row k = none ↔ k ∉ row.map Prod.fst := by
  induction row with
  | nil => simp [recordGet]
  | cons c rest ih =>
    by_cases h : c.1 = k
    · simp [recordGet, h]
    · simp [recordGet, h, ih]
      intro _
      exact fun he => h he.symm

theorem keys_recordSet_present (row : Row) {k : PersonId} (v : Site)
    (h : recordGet row k ≠ none) :
    (recordSet row k v).map Prod.fst = row.map Prod.fst := by
  induction row with
  | nil => simp [recordGet] at h
  | cons c rest ih =>
    by_cases hc : c.1 = k
    · simp [recordSet, hc]
    · simp [recordGet, hc] at h
      simp [recordSet, hc, ih h]

theorem keys_recordSet_absent (row : Row) {k : PersonId} (v : Site)
    (h : recordGet row k = none) :
    (recordSet row k v).map Prod.fst = row.map Prod.fst ++ [k] := by
  induction row with
  | nil => simp [recordSet]
  | cons c rest ih =>
    by_cases hc : c.1 = k
    · simp [recordGet, hc] at h
    · simp [recordGet, hc] at h
      simp [recordSet, hc, ih h]

theorem nodup_keys_recordSet (row : Row) (k : PersonId) (v : Site)
    (h : (row.map Prod.fst).Nodup) :
    ((recordSet row k v).map Prod.fst).Nodup := by
  by_cases hk : recordGet row k = none
  · rw [keys_recordSet_absent row v hk]
    have hout := (recordGet_eq_none_iff row k).mp hk
    simp [List.nodup_append, h, hout]
  · rw [keys_recordSet_present row v hk]
    exact h

theorem mem_keys_recordSet (row : Row) (k k' : PersonId) (v : Site)
    (h : k' ∈ row.map Prod.fst) :
    k' ∈ (recordSet row k v).map Prod.fst := by
  by_cases hk : recordGet row k = none
  · rw [keys_recordSet_absent row v hk]
    exact List.mem_append_left _ h
  · rw [keys_recordSet_present row v hk]
    exact h

theorem mem_of_recordGet {row : Row} {k : PersonId} {v : Site}
    (h : recordGet row k = some v) : (k, v) ∈ row := by
  induction row with
  | nil => simp [recordGet] at h
  | cons c rest ih =>
    by_cases hc : c.1 = k
    · simp [recordGet, hc] at h
      have hkv : (k, v) = c := by
        obtain ⟨c1, c2⟩ := c
        simp at hc h ⊢
        exact ⟨hc.symm, h.symm⟩
      rw [hkv]
      exact List.mem_cons_self _ _
    · simp [recordGet, hc] at h
      exact List.mem_cons_of_mem _ (ih h)

theorem recordGet_of_mem {row : Row} {k : PersonId} {v : Site}
    (hWF : (row.map Prod.fst).Nodup) (h : (k, v) ∈ row) :
    recordGet row k = some v := by
  induction row with
  | nil => simp at h
  | cons c rest ih =>
    rcases List.mem_cons.mp h with h1 | h1
    · rw [← h1]
      simp [recordGet]
    · have hne : c.1 ≠ k := by
        intro he
        have hmem : k ∈ rest.map Prod.fst := List.mem_map.mpr ⟨(k, v), h1, rfl⟩
        rw [List.map_cons, List.nodup_cons, he] at hWF
        exact hWF.1 hmem
      rw [List.map_cons, List.nodup_cons] at hWF
      simp [recordGet, hne]
      exact ih hWF.2 h1

theorem mem_recordSet {row : Row} {k : PersonId} {v : Site} {c : PersonId × Site}
    (h : c ∈ recordSet row k v) : c ∈ row ∨ c = (k, v) := by
  induction row with
  | nil => simp [recordSet] at h; right; exact h
  | cons e rest ih =>
    by_cases he : e.1 = k
    · simp [recordSet, he] at h
      rcases h with h | h
      · right; simp [h]
      · left; exact List.mem_cons_of_mem _ h
    · simp [recordSet, he] at h
      rcases h with h | h
      · left; simp [h]
      · rcases ih h with h2 | h2
        · left; exact List.mem_cons_of_mem _ h2
        · right; exact h2

theorem dayUsage_recordSet {row : Row} {k : PersonId} {w : Site}
    (hget : recordGet row k = some w) (v s : Site) :
    dayUsage (recordSet row k v) s + (if w = s then 1 else 0) =
      dayUsage row s + (if v = s then 1 else 0) := by
  induction row with
  | nil => simp [recordGet] at hget
  | cons c rest ih =>
    by_cases hc : c.1 = k
    · simp [recordGet, hc] at hget
      subst hget
      simp [recordSet, hc, dayUsage, List.filter]
      by_cases hv : v = s <;> by_cases hw : c.2 = s <;> simp [hv, hw]
    · simp [recordGet, hc] at hget
      have := ih hget
      simp [recordSet, hc, dayUsage, List.filter] at *
      by_cases hw : c.2 = s <;> simp [hw] <;> omega

theorem planGet_modify_self (plan : Plan) (d : Day) (f : Row → Row) :
    planGet (planModify plan d f) d = (planGet plan d).map f := by
  induction plan with
  | nil => simp [planModify, planGet]
  | cons e rest ih =>
    by_cases h : e.1 = d
    · simp [planModify, planGet, h]
    · simp [planModify, planGet, h, ih]

theorem planGet_modify_ne (plan : Plan) {d d' : Day} (f : Row → Row) (h : d' ≠ d) :
    planGet (planModify plan d f) d' = planGet plan d' := by
  induction plan with
  | nil => simp [planModify, planGet]
  | cons e rest ih =>
    by_cases he : e.1 = d
    · subst he
      simp [planModify, planGet, Ne.symm h]
    · by_cases he' : e.1 = d'
      · simp [planModify, planGet, he, he', h]
      · simp [planModify, planGet, he, he', ih]

theorem keys_planModify (plan : Plan) (d : Day) (f : Row → Row) :
    (planModify plan d f).map Prod.fst = plan.map Prod.fst := by
  induction plan with
  | nil => simp [planModify]
  | cons e rest ih =>
    by_cases h : e.1 = d
    · simp [planModify, h]
    · simp [planModify, h, ih]

theorem planGet_eq_none_iff (plan : Plan) (d : Day) :
    planGet plan d = none ↔ d ∉ plan.map Prod.fst := by
  induction plan with
  | nil => simp [planGet]
  | cons e rest ih =>
    by_cases h : e.1 = d
    · simp [planGet, h]
    · simp [planGet, h, ih]
      intro _
      exact fun he => h he.symm

theorem mem_planModify {plan : Plan} {d : Day} {f : Row → Row} {e : Day × Row}
    (h : e ∈ planModify plan d f) :
    ∃ e0 ∈ plan, e.1 = e0.1 ∧ (e.2 = e0.2 ∨ e.2 = f e0.2) := by
  induction plan with
  | nil => simp [planModify] at h
  | cons e1 rest ih =>
    by_cases h1 : e1.1 = d
    · simp [planModify, h1] at h
      rcases h with h | h
      · exact ⟨e1, List.mem_cons_self _ _, by simp [h, h1], Or.inr (by simp [h])⟩
      · exact ⟨e, List.mem_cons_of_mem _ h, rfl, Or.inl rfl⟩
    · simp [planModify, h1] at h
      rcases h with h | h
      · exact ⟨e1, List.mem_cons_self _ _, by simp [h], Or.inl (by simp [h])⟩
      · obtain ⟨e0, he0, h2, h3⟩ := ih h
        exact ⟨e0, List.mem_cons_of_mem _ he0, h2, h3⟩

/-! Facts about the stable descending sort. -/

theorem orderedInsertDesc_perm {α : Type} (pri : α → ℚ) (x : α) (l : List α) :
    List.Perm (orderedInsertDesc pri x l) (x :: l) := by
  induction l with
  | nil => simp [orderedInsertDesc]
  | cons y ys ih =>
    by_cases h : pri y ≤ pri x
    · simp [orderedInsertDesc, h]
    · simp only [orderedInsertDesc, if_neg h]
      exact (ih.cons y).trans (List.Perm.swap x y ys)

theorem sortByDesc_perm {α : Type} (pri : α → ℚ) (l : List α) :
    List.Perm (sortByDesc pri l) l := by
  induction l with
  | nil => simp [sortByDesc]
  | cons a l ih =>
    have : sortByDesc pri (a :: l) = orderedInsertDesc pri a (sortByDesc pri l) := rfl
    rw [this]
    exact (orderedInsertDesc_perm pri a _).trans (ih.cons a)

theorem mem_sortByDesc {α : Type} (pri : α → ℚ) (l : List α) (a : α) :
    a ∈ sortByDesc pri l ↔ a ∈ l :=
  (sortByDesc_perm pri l).mem_iff

/-! Membership characterizations of the candidate lists. -/

theorem mem_gcCandidates {people : List Person} {target : Person → Counters} {row : Row}
    {act : Actual} {c : Person × ℚ} (h : c ∈ gcCandidates people target row act) :
    c.1 ∈ people ∧ recordGet row c.1.id = some Site.REMOTE := by
  rw [gcCandidates, mem_sortByDesc] at h
  obtain ⟨p, hp, hpc⟩ := List.mem_map.mp h
  obtain ⟨hp1, hp2⟩ := List.mem_filter.mp hp
  rw [← hpc]
  exact ⟨hp1, of_decide_eq_true hp2⟩

theorem mem_availableForGC {people : List Person} {target : Person → Counters} {row : Row}
    {act : Actual} {p : Person} (h : p ∈ availableForGC people target row act) :
    p ∈ people ∧ recordGet row p.id = some Site.REMOTE := by
  rw [availableForGC, mem_sortByDesc] at h
  obtain ⟨hp1, hp2⟩ := List.mem_filter.mp h
  exact ⟨hp1, of_decide_eq_true hp2⟩

theorem mem_routeFilter {people : List Person} {row : Row} {p : Person}
    (h : p ∈ people.filter (fun p => decide (recordGet row p.id = some Site.REMOTE))) :
    p ∈ people ∧ recordGet row p.id = some Site.REMOTE := by
  obtain ⟨hp1, hp2⟩ := List.mem_filter.mp h
  exact ⟨hp1, of_decide_eq_true hp2⟩

/-! Keys and OOO-cell preservation through each step of the day loop. -/

theorem recordSet_ooo_of_get {row : Row} {k k' : PersonId} {v u : Site}
    (hget : recordGet row k = some u) (hu : u ≠ Site.OOO)
    (hooo : recordGet row k' = some Site.OOO) :
    recordGet (recordSet row k v) k' = some Site.OOO := by
  have hne : k' ≠ k := by
    intro he
    rw [he, hget] at hooo
    exact hu (Option.some.inj hooo)
  rw [recordGet_set_ne row v hne]
  exact hooo

theorem gcAssignLoop_keys (cands : List (Person × ℚ)) (row : Row) (act : Actual)
    (h : ∀ c ∈ cands, c.1.id ∈ row.map Prod.fst) :
    ((gcAssignLoop cands row act).1).map Prod.fst = row.map Prod.fst := by
  induction cands generalizing row act with
  | nil => simp [gcAssignLoop]
  | cons c rest ih =>
    by_cases h5 : SITES_GC_capacity ≤ dayUsage row Site.GC
    · simp [gcAssignLoop, h5]
    · by_cases hpos : 0 < c.2
      · simp only [gcAssignLoop, if_neg h5, if_pos hpos]
        have hpres : recordGet row c.1.id ≠ none := fun hn =>
          (recordGet_eq_none_iff row c.1.id).mp hn (h c (List.mem_cons_self _ _))
        have hkeys := keys_recordSet_present row Site.GC hpres
        have hrec := ih (recordSet row c.1.id Site.GC) (updateActual act c.1.id bumpGC)
          (fun c' hc' => by rw [hkeys]; exact h c' (List.mem_cons_of_mem _ hc'))
        rw [hrec, hkeys]
      · simp only [gcAssignLoop, if_neg h5, if_neg hpos]
        exact ih row act (fun c' hc' => h c' (List.mem_cons_of_mem _ hc'))

theorem gcAssignLoop_ooo (cands : List (Person × ℚ)) (row : Row) (act : Actual) {k : PersonId}
    (h : ∀ c ∈ cands, c.1.id ≠ k) (hk : recordGet row k = some Site.OOO) :
    recordGet ((gcAssignLoop cands row act).1) k = some Site.OOO := by
  induction cands generalizing row act with
  | nil => simpa [gcAssignLoop] using hk
  | cons c rest ih =>
    by_cases h5 : SITES_GC_capacity ≤ dayUsage row Site.GC
    · simpa [gcAssignLoop, h5] using hk
    · by_cases hpos : 0 < c.2
      · simp only [gcAssignLoop, if_neg h5, if_pos hpos]
        refine ih _ _ (fun c' hc' => h c' (List.mem_cons_of_mem _ hc')) ?_
        rw [recordGet_set_ne row Site.GC (Ne.symm (h c (List.mem_cons_self _ _)))]
        exact hk
      · simp only [gcAssignLoop, if_neg h5, if_neg hpos]
        exact ih row act (fun c' hc' => h c' (List.mem_cons_of_mem _ hc')) hk

theorem topUpFold_keys (L : List Person) (row : Row) (act : Actual)
    (h : ∀ p ∈ L, p.id ∈ row.map Prod.fst) :
    ((L.foldl topUpStep (row, act)).1).map Prod.fst = row.map Prod.fst := by
  induction L generalizing row act with
  | nil => simp
  | cons p rest ih =>
    have hpres : recordGet row p.id ≠ none := fun hn =>
      (recordGet_eq_none_iff row p.id).mp hn (h p (List.mem_cons_self _ _))
    have hkeys := keys_recordSet_present row Site.GC hpres
    rw [List.foldl_cons]
    have hrec := ih (recordSet row p.id Site.GC) (updateActual act p.id bumpGC)
      (fun p' hp' => by rw [hkeys]; exact h p' (List.mem_cons_of_mem _ hp'))
    rw [show topUpStep (row, act) p = (recordSet row p.id Site.GC, updateActual act p.id bumpGC) from rfl]
    rw [hrec, hkeys]

theorem topUpFold_ooo (L : List Person) (row : Row) (act : Actual) {k : PersonId}
    (h : ∀ p ∈ L, p.id ≠ k) (hk : recordGet row k = some Site.OOO) :
    recordGet ((L.foldl topUpStep (row, act)).1) k = some Site.OOO := by
  induction L generalizing row act with
  | nil => simpa using hk
  | cons p rest ih =>
    rw [List.foldl_cons]
    refine ih _ _ (fun p' hp' => h p' (List.mem_cons_of_mem _ hp')) ?_
    show recordGet (recordSet row p.id Site.GC) k = some Site.OOO
    rw [recordGet_set_ne row Site.GC (Ne.symm (h p (List.mem_cons_self _ _)))]
    exact hk

theorem routeStep_row (target : Person → Counters) (st : Row × Actual) (p : Person) :
    (routeStep target st p).1 = recordSet st.1 p.id (routeSite target st p) ∧
      ((routeSite target st p) = Site.ISSY ∨ (routeSite target st p) = Site.REMOTE) := by
  rw [routeStep, routeSite]
  by_cases hc : calculateIssyPriority p (st.2 p.id) (target p) >
      calculateRemotePriority p (st.2 p.id) (target p) ∧
      dayUsage st.1 Site.ISSY < SITES_ISSY_capacity
  · simp [hc]
  · simp [hc]

theorem routeFold_keys (target : Person → Counters) (L : List Person) (row : Row) (act : Actual)
    (h : ∀ p ∈ L, p.id ∈ row.map Prod.fst) :
    ((L.foldl (routeStep target) (row, act)).1).map Prod.fst = row.map Prod.fst := by
  induction L generalizing row act with
  | nil => simp
  | cons p rest ih =>
    have hpres : recordGet row p.id ≠ none := fun hn =>
      (recordGet_eq_none_iff row p.id).mp hn (h p (List.mem_cons_self _ _))
    rw [List.foldl_cons]
    obtain ⟨hrow, _⟩ := routeStep_row target (row, act) p
    have hkeys := keys_recordSet_present row (routeSite target (row, act) p) hpres
    have hrec := ih (routeStep target (row, act) p).1 (routeStep target (row, act) p).2
      (fun p' hp' => by rw [hrow, hkeys]; exact h p' (List.mem_cons_of_mem _ hp'))
    calc ((List.foldl (routeStep target) (routeStep target (row, act) p) rest).1).map Prod.fst
        = ((routeStep target (row, act) p).1).map Prod.fst := hrec
      _ = row.map Prod.fst := by rw [hrow, hkeys]

theorem routeFold_ooo (target : Person → Counters) (L : List Person) (row : Row) (act : Actual)
    {k : PersonId} (h : ∀ p ∈ L, p.id ≠ k) (hk : recordGet row k = some Site.OOO) :
    recordGet ((L.foldl (routeStep target) (row, act)).1) k = some Site.OOO := by
  induction L generalizing row act with
  | nil => simpa using hk
  | cons p rest ih =>
    rw [List.foldl_cons]
    obtain ⟨hrow, _⟩ := routeStep_row target (row, act) p
    refine ih (routeStep target (row, act) p).1 (routeStep target (row, act) p).2
      (fun p' hp' => h p' (List.mem_cons_of_mem _ hp')) ?_
    rw [hrow, recordGet_set_ne row _ (Ne.symm (h p (List.mem_cons_self _ _)))]
    exact hk

theorem mem_keys_of_recordGet {row : Row} {k : PersonId} {v : Site}
    (h : recordGet row k = some v) : k ∈ row.map Prod.fst := by
  by_contra hn
  have := (recordGet_eq_none_iff row k).mpr hn
  rw [h] at this
  cases this

theorem loneIssyFix_keys (row : Row) (act : Actual) :
    ((loneIssyFix row act).1).map Prod.fst = row.map Prod.fst := by
  rw [loneIssyFix]
  cases hf : row.filter (fun c => decide (c.2 = Site.ISSY)) with
  | nil => rfl
  | cons c rest =>
    cases rest with
    | nil =>
      have hc : c ∈ row := (List.mem_filter.mp (hf ▸ List.mem_cons_self c [])).1
      have hpres : recordGet row c.1 ≠ none := fun hn =>
        (recordGet_eq_none_iff row c.1).mp hn (List.mem_map.mpr ⟨c, hc, rfl⟩)
      simpa using keys_recordSet_present row Site.REMOTE hpres
    | cons c2 rest2 => rfl

theorem loneIssyFix_ooo (row : Row) (act : Actual) {k : PersonId}
    (hWF : (row.map Prod.fst).Nodup) (hk : recordGet row k = some Site.OOO) :
    recordGet ((loneIssyFix row act).1) k = some Site.OOO := by
  rw [loneIssyFix]
  cases hf : row.filter (fun c => decide (c.2 = Site.ISSY)) with
  | nil => exact hk
  | cons c rest =>
    cases rest with
    | nil =>
      have hmem := List.mem_filter.mp (hf ▸ List.mem_cons_self c [])
      have hISSY : c.2 = Site.ISSY := of_decide_eq_true hmem.2
      have hget : recordGet row c.1 = some c.2 := recordGet_of_mem hWF (by
        cases c
        exact hmem.1)
      show recordGet (recordSet row c.1 Site.REMOTE) k = some Site.OOO
      refine recordSet_ooo_of_get hget ?_ hk
      rw [hISSY]
      exact fun he => Site.noConfusion he
    | cons c2 rest2 => exact hk

theorem gcFloorTopUp_keys (people : List Person) (target : Person → Counters) (row : Row)
    (act : Actual) :
    ((gcFloorTopUp people target row act).1).map Prod.fst = row.map Prod.fst := by
  rw [gcFloorTopUp]
  by_cases hc : 0 < dayUsage row Site.GC ∧ dayUsage row Site.GC < 3
  · simp only [if_pos hc]
    apply topUpFold_keys
    intro p hp
    exact mem_keys_of_recordGet (mem_availableForGC (List.take_subset _ _ hp)).2
  · simp only [if_neg hc]

theorem gcFloorTopUp_ooo (people : List Person) (target : Person → Counters) (row : Row)
    (act : Actual) {k : PersonId} (hk : recordGet row k = some Site.OOO) :
    recordGet ((gcFloorTopUp people target row act).1) k = some Site.OOO := by
  rw [gcFloorTopUp]
  by_cases hc : 0 < dayUsage row Site.GC ∧ dayUsage row Site.GC < 3
  · simp only [if_pos hc]
    apply topUpFold_ooo _ _ _ _ hk
    intro p hp he
    have := (mem_availableForGC (List.take_subset _ _ hp)).2
    rw [he, hk] at this
    cases this
  · simp only [if_neg hc]
    exact hk

theorem issyRemoteRoute_keys (people : List Person) (target : Person → Counters) (row : Row)
    (act : Actual) :
    ((issyRemoteRoute people target row act).1).map Prod.fst = row.map Prod.fst := by
  rw [issyRemoteRoute]
  apply routeFold_keys
  intro p hp
  exact mem_keys_of_recordGet (mem_routeFilter hp).2

theorem issyRemoteRoute_ooo (people : List Person) (target : Person → Counters) (row : Row)
    (act : Actual) {k : PersonId} (hk : recordGet row k = some Site.OOO) :
    recordGet ((issyRemoteRoute people target row act).1) k = some Site.OOO := by
  rw [issyRemoteRoute]
  apply routeFold_ooo _ _ _ _ _ hk
  intro p hp he
  have := (mem_routeFilter hp).2
  rw [he, hk] at this
  cases this

theorem processDay_keys (people : List Person) (target : Person → Counters) (row : Row)
    (act : Actual) :
    ((processDay people target row act).1).map Prod.fst = row.map Prod.fst := by
  simp only [processDay]
  rw [loneIssyFix_keys, issyRemoteRoute_keys, gcFloorTopUp_keys, gcAssignLoop_keys]
  intro c hc
  exact mem_keys_of_recordGet (mem_gcCandidates hc).2

theorem processDay_ooo (people : List Person) (target : Person → Counters) (row : Row)
    (act : Actual) {k : PersonId} (hWF : (row.map Prod.fst).Nodup)
    (hk : recordGet row k = some Site.OOO) :
    recordGet ((processDay people target row act).1) k = some Site.OOO := by
  simp only [processDay]
  have hcand : ∀ c ∈ gcCandidates people target row act, c.1.id ≠ k := by
    intro c hc he
    have := (mem_gcCandidates hc).2
    rw [he, hk] at this
    cases this
  apply loneIssyFix_ooo
  · rw [issyRemoteRoute_keys, gcFloorTopUp_keys, gcAssignLoop_keys _ _ _
      (fun c hc => mem_keys_of_recordGet (mem_gcCandidates hc).2)]
    exact hWF
  · exact issyRemoteRoute_ooo _ _ _ _ (gcFloorTopUp_ooo _ _ _ _ (gcAssignLoop_ooo _ _ _ hcand hk))

/-! Facts about the initial plan and the override phases. -/

theorem initialPlan_keys (monthDays : List Day) (people : List Person) :
    (initialPlan monthDays people).map Prod.fst = monthDays := by
  induction monthDays with
  | nil => rfl
  | cons d rest ih => simpa [initialPlan] using ih

theorem planGet_initialPlan {monthDays : List Day} (people : List Person) {d : Day}
    (hd : d ∈ monthDays) :
    planGet (initialPlan monthDays people) d = some (people.map (fun p => (p.id, Site.REMOTE))) := by
  induction monthDays with
  | nil => cases hd
  | cons d0 rest ih =>
    by_cases h : d0 = d
    · simp [initialPlan, planGet, h]
    · rcases List.mem_cons.mp hd with h1 | h1
      · exact absurd h1.symm h
      · simpa [initialPlan, planGet, h] using ih h1

theorem recordGet_initRow {people : List Person} {p : Person} (hp : p ∈ people) :
    recordGet (people.map (fun p => (p.id, Site.REMOTE))) p.id = some Site.REMOTE := by
  induction people with
  | nil => cases hp
  | cons q rest ih =>
    by_cases h : q.id = p.id
    · simp [recordGet, h]
    · rcases List.mem_cons.mp hp with h1 | h1
      · rw [h1] at h; exact absurd rfl h
      · simpa [recordGet, h] using ih h1

theorem oooDateStep_keys (pid : PersonId) (pl : Plan) (iso : Day) :
    (oooDateStep pid pl iso).map Prod.fst = pl.map Prod.fst := by
  rw [oooDateStep]
  exact keys_planModify pl iso _

theorem oooEntryFold_keys (pid : PersonId) (ds : List Day) (pl : Plan) :
    (ds.foldl (oooDateStep pid) pl).map Prod.fst = pl.map Prod.fst := by
  induction ds generalizing pl with
  | nil => rfl
  | cons iso rest ih =>
    rw [List.foldl_cons, ih, oooDateStep_keys]

theorem applyOOO_keys (plan : Plan) (oooData : OOOData) :
    (applyOOO plan oooData).map Prod.fst = plan.map Prod.fst := by
  induction oooData generalizing plan with
  | nil => rfl
  | cons e rest ih =>
    rw [applyOOO, List.foldl_cons]
    show (applyOOO (e.2.foldl (oooDateStep e.1) plan) rest).map Prod.fst = plan.map Prod.fst
    rw [ih, oooEntryFold_keys]

theorem oooDateStep_cell_preserve {pid : PersonId} {pl : Plan} {iso d : Day} {k : PersonId}
    (h : planCell pl d k = some Site.OOO) :
    planCell (oooDateStep pid pl iso) d k = some Site.OOO := by
  rw [oooDateStep, planCell]
  by_cases hd : d = iso
  · subst hd
    rw [planGet_modify_self]
    rw [planCell] at h
    cases hg : planGet pl d with
    | none => rw [hg] at h; cases h
    | some row =>
      rw [hg] at h
      have h' : recordGet row k = some Site.OOO := h
      show recordGet (recordSet row pid Site.OOO) k = some Site.OOO
      by_cases hpk : pid = k
      · subst hpk
        exact recordGet_set_self row pid Site.OOO
      · rw [recordGet_set_ne row Site.OOO (fun he => hpk he.symm)]
        exact h'
  · rw [planGet_modify_ne pl _ hd]
    exact h

theorem oooEntryFold_cell_preserve {pid : PersonId} {ds : List Day} {pl : Plan} {d : Day}
    {k : PersonId} (h : planCell pl d k = some Site.OOO) :
    planCell (ds.foldl (oooDateStep pid) pl) d k = some Site.OOO := by
  induction ds generalizing pl with
  | nil => exact h
  | cons iso rest ih =>
    rw [List.foldl_cons]
    exact ih (oooDateStep_cell_preserve h)

theorem applyOOO_cell_preserve {plan : Plan} {oooData : OOOData} {d : Day} {k : PersonId}
    (h : planCell plan d k = some Site.OOO) :
    planCell (applyOOO plan oooData) d k = some Site.OOO := by
  induction oooData generalizing plan with
  | nil => exact h
  | cons e rest ih =>
    rw [applyOOO, List.foldl_cons]
    show planCell (applyOOO (e.2.foldl (oooDateStep e.1) plan) rest) d k = some Site.OOO
    exact ih (oooEntryFold_cell_preserve h)

theorem planGet_isSome_of_keys {pl : Plan} {d : Day}
    (h : d ∈ pl.map Prod.fst) : planGet pl d ≠ none := by
  intro hn
  exact (planGet_eq_none_iff pl d).mp hn h

theorem oooDateStep_cell_set (pid : PersonId) (pl : Plan) (d : Day)
    (hp : planGet pl d ≠ none) :
    planCell (oooDateStep pid pl d) d pid = some Site.OOO := by
  rw [oooDateStep, planCell, planGet_modify_self]
  cases hg : planGet pl d with
  | none => exact absurd hg hp
  | some row =>
    show recordGet (recordSet row pid Site.OOO) pid = some Site.OOO
    exact recordGet_set_self row pid Site.OOO

theorem oooEntryFold_cell_set (pid : PersonId) (ds : List Day) (pl : Plan) (d : Day)
    (hd : d ∈ ds) (hp : planGet pl d ≠ none) :
    planCell (ds.foldl (oooDateStep pid) pl) d pid = some Site.OOO := by
  induction ds generalizing pl with
  | nil => cases hd
  | cons iso rest ih =>
    rw [List.foldl_cons]
    by_cases hi : iso = d
    · subst hi
      exact oooEntryFold_cell_preserve (oooDateStep_cell_set pid pl iso hp)
    · rcases List.mem_cons.mp hd with h1 | h1
      · exact absurd h1.symm hi
      · refine ih _ h1 ?_
        intro hn
        apply hp
        rw [planGet_eq_none_iff] at hn ⊢
        rwa [oooDateStep_keys] at hn

theorem applyOOO_cell_set {plan : Plan} {oooData : OOOData} {d : Day} {pid : PersonId}
    {ds : List Day} (hmem : (pid, ds) ∈ oooData) (hd : d ∈ ds) (hp : planGet plan d ≠ none) :
    planCell (applyOOO plan oooData) d pid = some Site.OOO := by
  induction oooData generalizing plan with
  | nil => cases hmem
  | cons e rest ih =>
    rw [applyOOO, List.foldl_cons]
    show planCell (applyOOO (e.2.foldl (oooDateStep e.1) plan) rest) d pid = some Site.OOO
    rcases List.mem_cons.mp hmem with h1 | h1
    · have he1 : e.1 = pid := by rw [← h1]
      have he2 : e.2 = ds := by rw [← h1]
      rw [he1, he2]
      exact applyOOO_cell_preserve (oooEntryFold_cell_set pid ds plan d hd hp)
    · refine ih h1 ?_
      intro hn
      apply hp
      rw [planGet_eq_none_iff] at hn ⊢
      rwa [oooEntryFold_keys] at hn

theorem oooDateStep_cell_other {pid' : PersonId} {pl : Plan} {iso d : Day} {pid : PersonId}
    (h : pid' ≠ pid ∨ iso ≠ d) :
    planCell (oooDateStep pid' pl iso) d pid = planCell pl d pid := by
  rw [oooDateStep, planCell, planCell]
  by_cases hd : d = iso
  · subst hd
    rw [planGet_modify_self]
    cases hg : planGet pl d with
    | none => rfl
    | some row =>
      show recordGet (recordSet row pid' Site.OOO) pid = recordGet row pid
      rcases h with h | h
      · exact recordGet_set_ne row Site.OOO (Ne.symm h)
      · exact absurd rfl h
  · rw [planGet_modify_ne pl _ hd]

theorem oooEntryFold_cell_other {pid' : PersonId} {ds : List Day} {pl : Plan} {d : Day}
    {pid : PersonId} (h : pid' ≠ pid ∨ d ∉ ds) :
    planCell (ds.foldl (oooDateStep pid') pl) d pid = planCell pl d pid := by
  induction ds generalizing pl with
  | nil => rfl
  | cons iso rest ih =>
    rw [List.foldl_cons]
    have hstep : pid' ≠ pid ∨ iso ≠ d := by
      rcases h with h | h
      · exact Or.inl h
      · exact Or.inr (fun he => h (by rw [← he]; exact List.mem_cons_self _ _))
    have hrest : pid' ≠ pid ∨ d ∉ rest := by
      rcases h with h | h
      · exact Or.inl h
      · exact Or.inr (fun hm => h (List.mem_cons_of_mem _ hm))
    rw [ih hrest, oooDateStep_cell_other hstep]

theorem applyOOO_cell_other {plan : Plan} {oooData : OOOData} {d : Day} {pid : PersonId}
    (h : ∀ ds, (pid, ds) ∈ oooData → d ∉ ds) :
    planCell (applyOOO plan oooData) d pid = planCell plan d pid := by
  induction oooData generalizing plan with
  | nil => rfl
  | cons e rest ih =>
    rw [applyOOO, List.foldl_cons]
    show planCell (applyOOO (e.2.foldl (oooDateStep e.1) plan) rest) d pid = _
    rw [ih (fun ds hm => h ds (List.mem_cons_of_mem _ hm))]
    apply oooEntryFold_cell_other
    by_cases he : e.1 = pid
    · right
      refine h e.2 ?_
      have hx : (pid, e.2) = e := by rw [← he]
      rw [hx]
      exact List.mem_cons_self _ _
    · left
      exact he

/-! Facts about the BubbleLux phase. -/

theorem bubbleStep_keys {r : Row} {p : Person} (h : p.id ∈ r.map Prod.fst) :
    (bubbleStep r p).map Prod.fst = r.map Prod.fst := by
  rw [bubbleStep]
  by_cases hc : recordGet r p.id ≠ some Site.OOO
  · rw [if_pos hc]
    exact keys_recordSet_present r Site.ISSY
      (fun hn => (recordGet_eq_none_iff r p.id).mp hn h)
  · rw [if_neg hc]

theorem bubbleRow_keys (people : List Person) (row : Row)
    (h : ∀ p ∈ people, p.id ∈ row.map Prod.fst) :
    (bubbleRow people row).map Prod.fst = row.map Prod.fst := by
  rw [bubbleRow]
  induction people generalizing row with
  | nil => rfl
  | cons p rest ih =>
    rw [List.foldl_cons]
    have hk := bubbleStep_keys (h p (List.mem_cons_self _ _))
    have := ih (bubbleStep row p)
      (fun p' hp' => by rw [hk]; exact h p' (List.mem_cons_of_mem _ hp'))
    rw [this, hk]

theorem bubbleStep_ooo {r : Row} {k : PersonId} (p : Person)
    (hk : recordGet r k = some Site.OOO) :
    recordGet (bubbleStep r p) k = some Site.OOO := by
  rw [bubbleStep]
  by_cases hc : recordGet r p.id ≠ some Site.OOO
  · rw [if_pos hc]
    by_cases hpk : p.id = k
    · rw [hpk] at hc
      exact absurd hk hc
    · rw [recordGet_set_ne r Site.ISSY (fun he => hpk he.symm)]
      exact hk
  · rw [if_neg hc]
    exact hk

theorem bubbleRow_ooo (people : List Person) {row : Row} {k : PersonId}
    (hk : recordGet row k = some Site.OOO) :
    recordGet (bubbleRow people row) k = some Site.OOO := by
  rw [bubbleRow]
  induction people generalizing row with
  | nil => exact hk
  | cons p rest ih =>
    rw [List.foldl_cons]
    exact ih (bubbleStep_ooo p hk)

theorem bubbleFold_ne (L : List Person) (row : Row) {k : PersonId}
    (h : ∀ q ∈ L, q.id ≠ k) :
    recordGet (L.foldl bubbleStep row) k = recordGet row k := by
  induction L generalizing row with
  | nil => rfl
  | cons q rest ih =>
    rw [List.foldl_cons, ih _ (fun q' hq' => h q' (List.mem_cons_of_mem _ hq'))]
    rw [bubbleStep]
    by_cases hc : recordGet row q.id ≠ some Site.OOO
    · rw [if_pos hc]
      exact recordGet_set_ne row Site.ISSY (Ne.symm (h q (List.mem_cons_self _ _)))
    · rw [if_neg hc]

theorem bubbleRow_sets {people : List Person} {row : Row} {p : Person}
    (hids : (people.map Person.id).Nodup) (hp : p ∈ people)
    (hcur : recordGet row p.id = some Site.REMOTE ∨ recordGet row p.id = some Site.ISSY) :
    recordGet (bubbleRow people row) p.id = some Site.ISSY := by
  obtain ⟨l1, l2, rfl⟩ := List.append_of_mem hp
  rw [List.map_append, List.map_cons] at hids
  rw [List.nodup_append] at hids
  obtain ⟨h1, h2, hdisj⟩ := hids
  have hl1 : ∀ q ∈ l1, q.id ≠ p.id := by
    intro q hq he
    exact hdisj (List.mem_map.mpr ⟨q, hq, he⟩) (List.mem_cons_self _ _)
  have hl2 : ∀ q ∈ l2, q.id ≠ p.id := by
    intro q hq he
    rw [List.nodup_cons] at h2
    exact h2.1 (List.mem_map.mpr ⟨q, hq, he⟩)
  rw [bubbleRow, List.foldl_append, List.foldl_cons]
  have hmid : recordGet (l1.foldl bubbleStep row) p.id = recordGet row p.id :=
    bubbleFold_ne l1 row hl1
  rw [bubbleFold_ne l2 _ hl2]
  rw [bubbleStep]
  have hne : recordGet (l1.foldl bubbleStep row) p.id ≠ some Site.OOO := by
    rw [hmid]
    rcases hcur with h | h <;> rw [h] <;> exact fun he => Site.noConfusion (Option.some.inj he)
  rw [if_pos hne]
  exact recordGet_set_self _ p.id Site.ISSY

theorem bubbleDayStep_keys (people : List Person) (pl : Plan) (iso : Day) :
    (bubbleDayStep people pl iso).map Prod.fst = pl.map Prod.fst := by
  rw [bubbleDayStep]
  by_cases h : (planGet pl iso).isSome
  · rw [if_pos h]
    exact keys_planModify pl iso _
  · rw [if_neg h]

theorem applyBubbleLux_keys (plan : Plan) (bubbleLuxDates : List Day) (people : List Person) :
    (applyBubbleLux plan bubbleLuxDates people).map Prod.fst = plan.map Prod.fst := by
  rw [applyBubbleLux]
  induction bubbleLuxDates generalizing plan with
  | nil => rfl
  | cons iso rest ih =>
    rw [List.foldl_cons, ih, bubbleDayStep_keys]

theorem bubbleDayStep_get_ne (people : List Person) (pl : Plan) {iso d : Day} (h : d ≠ iso) :
    planGet (bubbleDayStep people pl iso) d = planGet pl d := by
  rw [bubbleDayStep]
  by_cases hs : (planGet pl iso).isSome
  · rw [if_pos hs]
    exact planGet_modify_ne pl _ h
  · rw [if_neg hs]

theorem applyBubbleLux_get_notmem {plan : Plan} {bubbleLuxDates : List Day}
    {people : List Person} {d : Day} (h : d ∉ bubbleLuxDates) :
    planGet (applyBubbleLux plan bubbleLuxDates people) d = planGet plan d := by
  rw [applyBubbleLux]
  induction bubbleLuxDates generalizing plan with
  | nil => rfl
  | cons iso rest ih =>
    rw [List.foldl_cons, ih (fun hm => h (List.mem_cons_of_mem _ hm))]
    exact bubbleDayStep_get_ne people plan
      (fun (he : d = iso) => h (by rw [he]; exact List.mem_cons_self _ _))

theorem bubbleDayStep_ooo (people : List Person) {pl : Plan} {iso d : Day} {k : PersonId}
    (h : planCell pl d k = some Site.OOO) :
    planCell (bubbleDayStep people pl iso) d k = some Site.OOO := by
  by_cases hd : d = iso
  · subst hd
    rw [bubbleDayStep]
    by_cases hs : (planGet pl d).isSome
    · rw [if_pos hs, planCell, planGet_modify_self]
      rw [planCell] at h
      cases hg : planGet pl d with
      | none => rw [hg] at h; cases h
      | some row =>
        rw [hg] at h
        have h' : recordGet row k = some Site.OOO := h
        show recordGet (bubbleRow people row) k = some Site.OOO
        exact bubbleRow_ooo people h'
    · rw [if_neg hs]
      exact h
  · rw [planCell, bubbleDayStep_get_ne people pl hd]
    exact h

theorem applyBubbleLux_ooo {plan : Plan} (bubbleLuxDates : List Day) (people : List Person)
    {d : Day} {k : PersonId} (h : planCell plan d k = some Site.OOO) :
    planCell (applyBubbleLux plan bubbleLuxDates people) d k = some Site.OOO := by
  rw [applyBubbleLux]
  induction bubbleLuxDates generalizing plan with
  | nil => exact h
  | cons iso rest ih =>
    rw [List.foldl_cons]
    exact ih (bubbleDayStep_ooo people h)

theorem bubbleRow_issy (people : List Person) {row : Row} {pid : PersonId}
    (h : recordGet row pid = some Site.ISSY) :
    recordGet (bubbleRow people row) pid = some Site.ISSY := by
  rw [bubbleRow]
  induction people generalizing row with
  | nil => exact h
  | cons q rest ih =>
    rw [List.foldl_cons]
    refine ih ?_
    rw [bubbleStep]
    by_cases hc : recordGet row q.id ≠ some Site.OOO
    · rw [if_pos hc]
      by_cases hq : q.id = pid
      · rw [hq]
        exact recordGet_set_self row pid Site.ISSY
      · rw [recordGet_set_ne row Site.ISSY (fun he => hq he.symm)]
        exact h
    · rw [if_neg hc]
      exact h

theorem bubbleDayStep_issy (people : List Person) {pl : Plan} {iso d : Day} {pid : PersonId}
    (h : planCell pl d pid = some Site.ISSY) :
    planCell (bubbleDayStep people pl iso) d pid = some Site.ISSY := by
  by_cases hd : d = iso
  · subst hd
    rw [bubbleDayStep]
    by_cases hs : (planGet pl d).isSome
    · rw [if_pos hs, planCell, planGet_modify_self]
      rw [planCell] at h
      cases hg : planGet pl d with
      | none => rw [hg] at h; cases h
      | some row =>
        rw [hg] at h
        have h' : recordGet row pid = some Site.ISSY := h
        show recordGet (bubbleRow people row) pid = some Site.ISSY
        exact bubbleRow_issy people h'
    · rw [if_neg hs]
      exact h
  · rw [planCell, bubbleDayStep_get_ne people pl hd]
    exact h

theorem applyBubbleLux_issy {plan : Plan} (bubbleLuxDates : List Day) (people : List Person)
    {d : Day} {pid : PersonId} (h : planCell plan d pid = some Site.ISSY) :
    planCell (applyBubbleLux plan bubbleLuxDates people) d pid = some Site.ISSY := by
  rw [applyBubbleLux]
  induction bubbleLuxDates generalizing plan with
  | nil => exact h
  | cons iso rest ih =>
    rw [List.foldl_cons]
    exact ih (bubbleDayStep_issy people h)

theorem bubbleDayStep_sets {people : List Person} {pl : Plan} {iso : Day} {p : Person}
    (hids : (people.map Person.id).Nodup) (hp : p ∈ people)
    (hpres : planGet pl iso ≠ none)
    (hcur : planCell pl iso p.id = some Site.REMOTE ∨ planCell pl iso p.id = some Site.ISSY) :
    planCell (bubbleDayStep people pl iso) iso p.id = some Site.ISSY := by
  rw [bubbleDayStep]
  have hs : (planGet pl iso).isSome := by
    cases hg : planGet pl iso with
    | none => exact absurd hg hpres
    | some row => rfl
  rw [if_pos hs, planCell, planGet_modify_self]
  simp only [planCell] at hcur
  cases hg : planGet pl iso with
  | none => exact absurd hg hpres
  | some row =>
    rw [hg] at hcur
    have hcur' : recordGet row p.id = some Site.REMOTE ∨ recordGet row p.id = some Site.ISSY := hcur
    show recordGet (bubbleRow people row) p.id = some Site.ISSY
    exact bubbleRow_sets hids hp hcur'

theorem applyBubbleLux_sets {plan : Plan} {bubbleLuxDates : List Day} {people : List Person}
    {d : Day} {p : Person} (hids : (people.map Person.id).Nodup) (hp : p ∈ people)
    (hd : d ∈ bubbleLuxDates) (hpres : planGet plan d ≠ none)
    (hcur : planCell plan d p.id = some Site.REMOTE ∨ planCell plan d p.id = some Site.ISSY) :
    planCell (applyBubbleLux plan bubbleLuxDates people) d p.id = some Site.ISSY := by
  rw [applyBubbleLux]
  induction bubbleLuxDates generalizing plan with
  | nil => cases hd
  | cons iso rest ih =>
    rw [List.foldl_cons]
    by_cases hi : iso = d
    · subst hi
      have hafter := bubbleDayStep_sets hids hp hpres hcur
      have : planCell (List.foldl (bubbleDayStep people) (bubbleDayStep people plan iso) rest)
          iso p.id = some Site.ISSY := by
        have := @applyBubbleLux_issy (bubbleDayStep people plan iso) rest people _ _ hafter
        rwa [applyBubbleLux] at this
      exact this
    · have hdr : d ∈ rest := by
        rcases List.mem_cons.mp hd with h1 | h1
        · exact absurd h1.symm hi
        · exact h1
      have hget := bubbleDayStep_get_ne people plan (fun he => hi he.symm)
      refine ih hdr ?_ ?_
      · rw [hget]
        exact hpres
      · simp only [planCell] at hcur ⊢
        rw [hget]
        exact hcur

/-! Facts about the day loop. -/

theorem runDays_keys (people : List Person) (target : Person → Counters)
    (bubbleLuxDates : List Day) (plan : Plan) (act : Actual) :
    ((runDays people target bubbleLuxDates plan act).1).map Prod.fst = plan.map Prod.fst := by
  induction plan generalizing act with
  | nil => rfl
  | cons e rest ih =>
    rw [runDays]
    by_cases hb : bubbleLuxDates.contains e.1
    · simp only [if_pos hb, List.map_cons]
      rw [ih]
    · simp only [if_neg hb, List.map_cons]
      rw [ih]

theorem runDays_get_bubble {people : List Person} {target : Person → Counters}
    {bubbleLuxDates : List Day} {plan : Plan} {d : Day} {row : Row}
    (hg : planGet plan d = some row) (hb : bubbleLuxDates.contains d = true) :
    ∀ act, planGet ((runDays people target bubbleLuxDates plan act).1) d = some row := by
  induction plan with
  | nil => intro act; rw [planGet] at hg; cases hg
  | cons e rest ih =>
    intro act
    rw [runDays]
    by_cases hed : e.1 = d
    · rw [planGet, if_pos hed] at hg
      have hbe : bubbleLuxDates.contains e.1 = true := by rw [hed]; exact hb
      simp only [if_pos hbe]
      rw [planGet, if_pos hed]
      exact hg
    · rw [planGet, if_neg hed] at hg
      by_cases hbe : bubbleLuxDates.contains e.1
      · simp only [if_pos hbe]
        rw [planGet, if_neg hed]
        exact ih hg _
      · simp only [if_neg hbe]
        show planGet (((e.1, (processDay people target e.2 act).1)) ::
          (runDays people target bubbleLuxDates rest (processDay people target e.2 act).2).1) d =
          some row
        rw [planGet]
        simp only [if_neg hed]
        exact ih hg _

theorem runDays_get_ex {people : List Person} {target : Person → Counters}
    {bubbleLuxDates : List Day} {plan : Plan} {d : Day} {row : Row}
    (hg : planGet plan d = some row) :
    ∀ act, ∃ row', planGet ((runDays people target bubbleLuxDates plan act).1) d = some row' ∧
      (row' = row ∨ ∃ a, row' = (processDay people target row a).1) := by
  induction plan with
  | nil => intro act; rw [planGet] at hg; cases hg
  | cons e rest ih =>
    intro act
    rw [runDays]
    by_cases hed : e.1 = d
    · rw [planGet, if_pos hed] at hg
      obtain rfl : e.2 = row := Option.some.inj hg
      by_cases hbe : bubbleLuxDates.contains e.1
      · simp only [if_pos hbe]
        refine ⟨e.2, ?_, Or.inl rfl⟩
        rw [planGet, if_pos hed]
      · simp only [if_neg hbe]
        refine ⟨(processDay people target e.2 act).1, ?_, Or.inr ⟨act, rfl⟩⟩
        show planGet ((e.1, (processDay people target e.2 act).1) :: _) d = _
        rw [planGet]
        simp only [if_pos hed]
    · rw [planGet, if_neg hed] at hg
      by_cases hbe : bubbleLuxDates.contains e.1
      · simp only [if_pos hbe]
        obtain ⟨row', h1, h2⟩ := ih hg act
        refine ⟨row', ?_, h2⟩
        rw [planGet, if_neg hed]
        exact h1
      · simp only [if_neg hbe]
        obtain ⟨row', h1, h2⟩ := ih hg (processDay people target e.2 act).2
        refine ⟨row', ?_, h2⟩
        show planGet ((e.1, (processDay people target e.2 act).1) :: _) d = _
        rw [planGet]
        simp only [if_neg hed]
        exact h1

theorem runDays_entries {people : List Person} {target : Person → Counters}
    {bubbleLuxDates : List Day} (plan : Plan) (act : Actual) :
    ∀ e ∈ (runDays people target bubbleLuxDates plan act).1, ∃ e0 ∈ plan, e.1 = e0.1 ∧
      ((bubbleLuxDates.contains e0.1 = true ∧ e.2 = e0.2) ∨
       (bubbleLuxDates.contains e0.1 = false ∧
         ∃ a, e.2 = (processDay people target e0.2 a).1)) := by
  induction plan generalizing act with
  | nil => intro e he; cases he
  | cons e1 rest ih =>
    intro e he
    rw [runDays] at he
    by_cases hbe : bubbleLuxDates.contains e1.1
    · simp only [if_pos hbe] at he
      rcases List.mem_cons.mp he with h1 | h1
      · exact ⟨e1, List.mem_cons_self _ _, by rw [h1], Or.inl ⟨hbe, by rw [h1]⟩⟩
      · obtain ⟨e0, he0, h2, h3⟩ := ih act e h1
        exact ⟨e0, List.mem_cons_of_mem _ he0, h2, h3⟩
    · simp only [if_neg hbe] at he
      rcases List.mem_cons.mp he with h1 | h1
      · refine ⟨e1, List.mem_cons_self _ _, by rw [h1], Or.inr ⟨by simpa using hbe, act, by rw [h1]⟩⟩
      · obtain ⟨e0, he0, h2, h3⟩ := ih (processDay people target e1.2 act).2 e h1
        exact ⟨e0, List.mem_cons_of_mem _ he0, h2, h3⟩

/-! Generic preservation of a row predicate through the phases. -/

theorem planModify_pres (Q : Row → Prop) {pl : Plan} {d : Day} {f : Row → Row}
    (hf : ∀ row, Q row → Q (f row)) (h : ∀ e ∈ pl, Q e.2) :
    ∀ e ∈ planModify pl d f, Q e.2 := by
  intro e he
  obtain ⟨e0, he0, _, h3⟩ := mem_planModify he
  rcases h3 with h3 | h3
  · rw [h3]
    exact h e0 he0
  · rw [h3]
    exact hf e0.2 (h e0 he0)

theorem oooEntryFold_pres (Q : Row → Prop)
    (hQ : ∀ row k, Q row → Q (recordSet row k Site.OOO))
    {pid : PersonId} {ds : List Day} {plan : Plan} (h : ∀ e ∈ plan, Q e.2) :
    ∀ e ∈ ds.foldl (oooDateStep pid) plan, Q e.2 := by
  induction ds generalizing plan with
  | nil => exact h
  | cons iso rest ih =>
    rw [List.foldl_cons]
    exact ih (planModify_pres Q (fun row hrow => hQ row pid hrow) h)

theorem applyOOO_pres (Q : Row → Prop)
    (hQ : ∀ row k, Q row → Q (recordSet row k Site.OOO))
    {plan : Plan} {oooData : OOOData} (h : ∀ e ∈ plan, Q e.2) :
    ∀ e ∈ applyOOO plan oooData, Q e.2 := by
  induction oooData generalizing plan with
  | nil => exact h
  | cons e0 rest ih =>
    rw [applyOOO, List.foldl_cons]
    show ∀ e ∈ applyOOO (e0.2.foldl (oooDateStep e0.1) plan) rest, Q e.2
    exact ih (oooEntryFold_pres Q hQ h)

theorem applyBubbleLux_pres (Q : Row → Prop) {people : List Person}
    (hQ : ∀ row, Q row → Q (bubbleRow people row))
    {plan : Plan} {bubbleLuxDates : List Day} (h : ∀ e ∈ plan, Q e.2) :
    ∀ e ∈ applyBubbleLux plan bubbleLuxDates people, Q e.2 := by
  rw [applyBubbleLux]
  induction bubbleLuxDates generalizing plan with
  | nil => exact h
  | cons iso rest ih =>
    rw [List.foldl_cons]
    refine ih ?_
    rw [bubbleDayStep]
    by_cases hs : (planGet plan iso).isSome
    · rw [if_pos hs]
      exact planModify_pres Q hQ h
    · rw [if_neg hs]
      exact h

theorem runDays_pres (Q : Row → Prop) {people : List Person} {target : Person → Counters}
    {bubbleLuxDates : List Day}
    (hQ : ∀ row act, Q row → Q ((processDay people target row act).1))
    {plan : Plan} {act : Actual} (h : ∀ e ∈ plan, Q e.2) :
    ∀ e ∈ (runDays people target bubbleLuxDates plan act).1, Q e.2 := by
  intro e he
  obtain ⟨e0, he0, _, h3⟩ := runDays_entries plan act e he
  rcases h3 with ⟨_, h3⟩ | ⟨_, a, h3⟩
  · rw [h3]
    exact h e0 he0
  · rw [h3]
    exact hQ e0.2 a (h e0 he0)

theorem initRow_keys (people : List Person) :
    ((people.map (fun p => (p.id, Site.REMOTE))).map Prod.fst) = people.map Person.id := by
  induction people with
  | nil => rfl
  | cons p rest ih => simp [ih]

theorem mem_initialPlan {monthDays : List Day} {people : List Person} {e : Day × Row}
    (h : e ∈ initialPlan monthDays people) :
    e.2 = people.map (fun p => (p.id, Site.REMOTE)) := by
  rw [initialPlan] at h
  obtain ⟨d, _, hd⟩ := List.mem_map.mp h
  rw [← hd]

theorem planCell_eq_some {pl : Plan} {d : Day} {k : PersonId} {v : Site} :
    planCell pl d k = some v ↔
      ∃ row, planGet pl d = some row ∧ recordGet row k = some v := by
  rw [planCell]
  cases planGet pl d <;> simp

theorem mem_of_planGet {pl : Plan} {d : Day} {row : Row}
    (h : planGet pl d = some row) : (d, row) ∈ pl := by
  induction pl with
  | nil => cases h
  | cons e rest ih =>
    rw [planGet] at h
    by_cases he : e.1 = d
    · rw [if_pos he] at h
      have : (d, row) = e := by
        obtain ⟨e1, e2⟩ := e
        simp at he h ⊢
        exact ⟨he.symm, h.symm⟩
      rw [this]
      exact List.mem_cons_self _ _
    · rw [if_neg he] at h
      exact List.mem_cons_of_mem _ (ih h)

theorem bindings_count_eq_one {row : Row} {k : PersonId}
    (hnd : (row.map Prod.fst).Nodup) (hmem : k ∈ row.map Prod.fst) :
    (row.filter (fun c => decide (c.1 = k))).length = 1 := by
  induction row with
  | nil => simp at hmem
  | cons c rest ih =>
    rw [List.map_cons, List.nodup_cons] at hnd
    by_cases hc : c.1 = k
    · have hrest : rest.filter (fun c => decide (c.1 = k)) = [] := by
        rw [List.filter_eq_nil_iff]
        intro a ha
        simp only [decide_eq_true_eq]
        intro he
        refine hnd.1 ?_
        rw [hc]
        exact List.mem_map.mpr ⟨a, ha, he⟩
      rw [List.filter_cons]
      simp [hc, hrest]
    · have hk : k ∈ rest.map Prod.fst := by
        rcases List.mem_cons.mp hmem with h1 | h1
        · exact absurd h1.symm hc
        · exact h1
      rw [List.filter_cons]
      simp only [hc, decide_eq_false, if_false]
      simpa using ih hnd.2 hk

theorem overlayOK (monthDays bubbleLuxDates : List Day) (oooData : OOOData)
    (people : List Person) (hids : (people.map Person.id).Nodup) :
    ∀ e ∈ applyBubbleLux (applyOOO (initialPlan monthDays people) oooData)
        bubbleLuxDates people,
      ((e.2.map Prod.fst).Nodup ∧ ∀ p ∈ people, p.id ∈ e.2.map Prod.fst) := by
  apply applyBubbleLux_pres
    (fun row => (row.map Prod.fst).Nodup ∧ ∀ p ∈ people, p.id ∈ row.map Prod.fst)
  · intro row hrow
    have hk := bubbleRow_keys people row hrow.2
    rw [hk]
    exact hrow
  · apply applyOOO_pres
      (fun row => (row.map Prod.fst).Nodup ∧ ∀ p ∈ people, p.id ∈ row.map Prod.fst)
    · intro row k hrow
      exact ⟨nodup_keys_recordSet _ _ _ hrow.1,
        fun q hq => mem_keys_recordSet _ _ _ _ (hrow.2 q hq)⟩
    · intro e he
      have h2 := mem_initialPlan he
      rw [h2, initRow_keys]
      exact ⟨hids, fun q hq => List.mem_map.mpr ⟨q, hq, rfl⟩⟩

theorem generateSchedule_rowOK (monthDays bubbleLuxDates : List Day) (oooData : OOOData)
    (people : List Person) (hids : (people.map Person.id).Nodup) :
    ∀ e ∈ (generateSchedule monthDays bubbleLuxDates oooData people).plan,
      ((e.2.map Prod.fst).Nodup ∧ ∀ p ∈ people, p.id ∈ e.2.map Prod.fst) := by
  simp only [generateSchedule]
  apply runDays_pres
    (fun row => (row.map Prod.fst).Nodup ∧ ∀ p ∈ people, p.id ∈ row.map Prod.fst)
  · intro row act hrow
    have hk := processDay_keys people (targetDaysFor monthDays oooData) row act
    rw [hk]
    exact hrow
  · exact overlayOK monthDays bubbleLuxDates oooData people hids

/-- C1: for every well-formed input (business-day expansion of the month
anchor, all-hands dates, absence map, roster with distinct ids),
generateSchedule always completes (it is a total function) and returns a
plan that has exactly one row per month business day and, in every row,
exactly one binding for every roster person, carrying one of the four tags
(the binding's value inhabits the four-constructor type Site). -/
theorem C1_every_cell_has_exactly_one_tag (monthDays bubbleLuxDates : List Day)
    (oooData : OOOData) (people : List Person)
    (hids : (people.map Person.id).Nodup) :
    (generateSchedule monthDays bubbleLuxDates oooData people).days = monthDays ∧
    ((generateSchedule monthDays bubbleLuxDates oooData people).plan).map Prod.fst = monthDays ∧
    ∀ e ∈ (generateSchedule monthDays bubbleLuxDates oooData people).plan, ∀ p ∈ people,
      (e.2.filter (fun c => decide (c.1 = p.id))).length = 1 ∧
        ∃ s : Site, recordGet e.2 p.id = some s := by
  refine ⟨rfl, ?_, ?_⟩
  · simp only [generateSchedule]
    rw [runDays_keys, applyBubbleLux_keys, applyOOO_keys, initialPlan_keys]
  · intro e he p hp
    obtain ⟨hnd, hmem⟩ := generateSchedule_rowOK monthDays bubbleLuxDates oooData people hids e he
    refine ⟨bindings_count_eq_one hnd (hmem p hp), ?_⟩
    cases hr : recordGet e.2 p.id with
    | none => exact absurd (hmem p hp) ((recordGet_eq_none_iff e.2 p.id).mp hr)
    | some s => exact ⟨s, rfl⟩

/-- Witness for C1 at a concrete input: one month day, one BubbleLux day,
one absence entry, a two-person roster. -/
theorem C1_every_cell_has_exactly_one_tag_witness :
    (generateSchedule [chars ("m")] [chars ("m")] [(chars ("a"), [chars ("m")])]
      [⟨chars ("a"), chars ("A"), ⟨0, 50, 50⟩⟩, ⟨chars ("b"), chars ("B"), ⟨90, 5, 5⟩⟩]).days =
      [chars ("m")] ∧
    ((generateSchedule [chars ("m")] [chars ("m")] [(chars ("a"), [chars ("m")])]
      [⟨chars ("a"), chars ("A"), ⟨0, 50, 50⟩⟩, ⟨chars ("b"), chars ("B"), ⟨90, 5, 5⟩⟩]).plan).map
        Prod.fst = [chars ("m")] ∧
    ∀ e ∈ (generateSchedule [chars ("m")] [chars ("m")] [(chars ("a"), [chars ("m")])]
      [⟨chars ("a"), chars ("A"), ⟨0, 50, 50⟩⟩, ⟨chars ("b"), chars ("B"), ⟨90, 5, 5⟩⟩]).plan,
      ∀ p ∈ [⟨chars ("a"), chars ("A"), ⟨0, 50, 50⟩⟩,
             (⟨chars ("b"), chars ("B"), ⟨90, 5, 5⟩⟩ : Person)],
      (e.2.filter (fun c => decide (c.1 = p.id))).length = 1 ∧
        ∃ s : Site, recordGet e.2 p.id = some s :=
  C1_every_cell_has_exactly_one_tag _ _ _ _ (by decide)

/-- C2: absence wins over everything.  Whenever an oooData entry marks the
person absent on a business day of the month, the generated plan holds OOO
in that cell, whatever the BubbleLux dates, the greedy fill, the floor
correction and the lone-occupant correction do. -/
theorem C2_absence_has_highest_precedence (monthDays bubbleLuxDates : List Day)
    (oooData : OOOData) (people : List Person) (p : Person) (d : Day) (ds : List Day)
    (hids : (people.map Person.id).Nodup) (_hp : p ∈ people)
    (hooo : (p.id, ds) ∈ oooData) (hdds : d ∈ ds) (hd : d ∈ monthDays) :
    planCell (generateSchedule monthDays bubbleLuxDates oooData people).plan d p.id =
      some Site.OOO := by
  have hpres0 : planGet (initialPlan monthDays people) d ≠ none := by
    apply planGet_isSome_of_keys
    rw [initialPlan_keys]
    exact hd
  have h1 : planCell (applyOOO (initialPlan monthDays people) oooData) d p.id =
      some Site.OOO :=
    applyOOO_cell_set hooo hdds hpres0
  have h2 : planCell (applyBubbleLux (applyOOO (initialPlan monthDays people) oooData)
      bubbleLuxDates people) d p.id = some Site.OOO :=
    applyBubbleLux_ooo _ _ h1
  obtain ⟨row, hrow, hget⟩ := planCell_eq_some.mp h2
  have hWF : (row.map Prod.fst).Nodup :=
    (overlayOK monthDays bubbleLuxDates oooData people hids (d, row) (mem_of_planGet hrow)).1
  simp only [generateSchedule]
  obtain ⟨row', hrow', hcase⟩ :=
    @runDays_get_ex people (targetDaysFor monthDays oooData)
      bubbleLuxDates _ _ _ hrow (initialActual bubbleLuxDates oooData)
  rw [planCell, hrow']
  show recordGet row' p.id = some Site.OOO
  rcases hcase with h3 | ⟨a, h3⟩
  · rw [h3]
    exact hget
  · rw [h3]
    exact processDay_ooo _ _ _ _ hWF hget

/-- Witness for C2 at a concrete input: person a is absent on the single
month day, which is also a BubbleLux day. -/
theorem C2_absence_has_highest_precedence_witness :
    planCell (generateSchedule [chars ("m")] [chars ("m")] [(chars ("a"), [chars ("m")])]
      [⟨chars ("a"), chars ("A"), ⟨0, 50, 50⟩⟩, ⟨chars ("b"), chars ("B"), ⟨90, 5, 5⟩⟩]).plan
      (chars ("m")) (chars ("a")) = some Site.OOO :=
  C2_absence_has_highest_precedence _ _ _ _ ⟨chars ("a"), chars ("A"), ⟨0, 50, 50⟩⟩ _
    [chars ("m")] (by decide) (by decide) (by decide) (by decide) (by decide)

/-! Availability arithmetic for the Target Allocator. -/

theorem contains_eq_decide_mem (l : List Day) (d : Day) : l.contains d = decide (d ∈ l) := by
  by_cases h : d ∈ l
  · rw [decide_eq_true h]
    exact List.elem_eq_true_of_mem h
  · rw [decide_eq_false h]
    cases hcl : l.contains d
    · rfl
    · exact absurd (List.mem_of_elem_eq_true hcl) h

theorem avail_count (monthDays : List Day) (abs : List Day) (hmd : monthDays.Nodup)
    (habs : abs.Nodup) (hsub : ∀ a ∈ abs, a ∈ monthDays) :
    (monthDays.filter (fun d => !(abs.contains d))).length + abs.length =
      monthDays.length := by
  induction monthDays generalizing abs with
  | nil =>
    have : abs = [] := List.eq_nil_iff_forall_not_mem.mpr
      (fun a ha => (List.not_mem_nil a) (hsub a ha))
    simp [this]
  | cons m md ih =>
    rw [List.nodup_cons] at hmd
    by_cases hm : m ∈ abs
    · have hdrop : (m :: md).filter (fun d => !(abs.contains d)) =
          md.filter (fun d => !(abs.contains d)) := by
        rw [List.filter_cons]
        simp [contains_eq_decide_mem, hm]
      have heq : md.filter (fun d => !(abs.contains d)) =
          md.filter (fun d => !((abs.erase m).contains d)) := by
        apply List.filter_congr
        intro d hd
        have hdm : d ≠ m := fun he => hmd.1 (he ▸ hd)
        rw [contains_eq_decide_mem, contains_eq_decide_mem]
        by_cases hda : d ∈ abs
        · rw [decide_eq_true hda, decide_eq_true ((habs.mem_erase_iff).mpr ⟨hdm, hda⟩)]
        · rw [decide_eq_false hda,
            decide_eq_false (fun hx => hda (List.mem_of_mem_erase hx))]
      have hlen : (abs.erase m).length + 1 = abs.length := by
        rw [List.length_erase_of_mem hm]
        have : abs.length ≠ 0 := fun h0 => by
          rw [List.length_eq_zero] at h0
          rw [h0] at hm
          cases hm
        omega
      have hsub' : ∀ a ∈ abs.erase m, a ∈ md := by
        intro a ha
        have h1 := (habs.mem_erase_iff).mp ha
        rcases List.mem_cons.mp (hsub a h1.2) with h2 | h2
        · exact absurd h2 h1.1
        · exact h2
      have := ih (abs.erase m) hmd.2 (habs.erase m) hsub'
      rw [hdrop, heq, List.length_cons]
      omega
    · have hkeep : (m :: md).filter (fun d => !(abs.contains d)) =
          m :: md.filter (fun d => !(abs.contains d)) := by
        rw [List.filter_cons]
        simp [contains_eq_decide_mem, hm]
      have hsub' : ∀ a ∈ abs, a ∈ md := by
        intro a ha
        rcases List.mem_cons.mp (hsub a ha) with h2 | h2
        · rw [h2] at ha
          exact absurd ha hm
        · exact h2
      have := ih abs hmd.2 habs hsub'
      rw [hkeep, List.length_cons, List.length_cons]
      omega

/-- C5: for every person, with availability equal to the number of month
business days minus the person's absence-day count, the targets are exactly
round(gcShare/100 × availability), round(issyShare/100 × availability) and
the residual availability − gcTarget − issyTarget, with no clamping.  The
hypotheses say the absence set is well formed (distinct dates lying in the
month), which is what makes the code's filter count equal the spec's
subtraction. -/
theorem C5_target_allocation_formula (monthDays : List Day) (oooData : OOOData) (p : Person)
    (hmd : monthDays.Nodup) (habs : (oooDates oooData p.id).Nodup)
    (hsub : ∀ a ∈ oooDates oooData p.id, a ∈ monthDays) :
    ∃ availability : Int,
      availability = (monthDays.length : Int) - ((oooDates oooData p.id).length : Int) ∧
      targetDaysFor monthDays oooData p =
        { gc := jsRound ((p.prefs.gcShare : ℚ) / 100 * (availability : ℚ)),
          issy := jsRound ((p.prefs.issyShare : ℚ) / 100 * (availability : ℚ)),
          remote := availability - jsRound ((p.prefs.gcShare : ℚ) / 100 * (availability : ℚ))
            - jsRound ((p.prefs.issyShare : ℚ) / 100 * (availability : ℚ)) } := by
  refine ⟨(availableDaysCount monthDays oooData p : Int), ?_, ?_⟩
  · have h := avail_count monthDays (oooDates oooData p.id) hmd habs hsub
    rw [availableDaysCount]
    omega
  · rw [targetDaysFor]

/-- Witness for C5 at a concrete input: two month days, one absence. -/
theorem C5_target_allocation_formula_witness :
    ∃ availability : Int,
      availability = (([chars ("m"), chars ("n")] : List Day).length : Int) -
        ((oooDates [(chars ("a"), [chars ("n")])] (chars ("a"))).length : Int) ∧
      targetDaysFor [chars ("m"), chars ("n")] [(chars ("a"), [chars ("n")])]
          ⟨chars ("a"), chars ("A"), ⟨70, 10, 20⟩⟩ =
        { gc := jsRound ((70 : ℚ) / 100 * (availability : ℚ)),
          issy := jsRound ((10 : ℚ) / 100 * (availability : ℚ)),
          remote := availability - jsRound ((70 : ℚ) / 100 * (availability : ℚ))
            - jsRound ((10 : ℚ) / 100 * (availability : ℚ)) } :=
  C5_target_allocation_formula [chars ("m"), chars ("n")] [(chars ("a"), [chars ("n")])]
    ⟨chars ("a"), chars ("A"), ⟨70, 10, 20⟩⟩ (by decide) (by decide) (by decide)

/-- C6 as stated is false: because the remote target is computed as the
residual availability − gcTarget − issyTarget, the three targets sum to
availability for every input whatsoever; no input can make them differ. -/
theorem C6_counterexample_targets_always_sum :
    ¬ ∃ (monthDays : List Day) (oooData : OOOData) (p : Person),
        (targetDaysFor monthDays oooData p).gc + (targetDaysFor monthDays oooData p).issy +
            (targetDaysFor monthDays oooData p).remote ≠
          (availableDaysCount monthDays oooData p : Int) := by
  rintro ⟨md, ooo, p, h⟩
  apply h
  simp only [targetDaysFor]
  ring

/-- C6 amended: the three computed targets always sum exactly to the
person's availability (the remote target is the residual); what rounding
drift can produce instead is a negative remote target, witnessed here by
shares 90/90/20 on a one-day availability. -/
theorem C6_amended_sum_exact_but_remote_can_be_negative :
    (∀ (monthDays : List Day) (oooData : OOOData) (p : Person),
        (targetDaysFor monthDays oooData p).gc + (targetDaysFor monthDays oooData p).issy +
            (targetDaysFor monthDays oooData p).remote =
          (availableDaysCount monthDays oooData p : Int)) ∧
      (targetDaysFor [chars ("d")] [] ⟨chars ("h"), chars ("H"), ⟨90, 90, 20⟩⟩).remote < 0 := by
  constructor
  · intro md ooo p
    simp only [targetDaysFor]
    ring
  · show (targetDaysFor [chars ("d")] [] ⟨chars ("h"), chars ("H"), ⟨90, 90, 20⟩⟩).remote < 0
    with_unfolding_all decide

/-- C7: for every person, every location among GC, ISSY and REMOTE, and
every counter state, the greedy priority equals
2 × (target[location] − actual[location]) + share[location]/100. -/
theorem C7_priority_score_formula (person : Person) (actual target : Counters) :
    calculateGCPriority person actual target =
        2 * ((target.gc : ℚ) - (actual.gc : ℚ)) + (person.prefs.gcShare : ℚ) / 100 ∧
      calculateIssyPriority person actual target =
        2 * ((target.issy : ℚ) - (actual.issy : ℚ)) + (person.prefs.issyShare : ℚ) / 100 ∧
      calculateRemotePriority person actual target =
        2 * ((target.remote : ℚ) - (actual.remote : ℚ)) + (person.prefs.remoteShare : ℚ) / 100 := by
  refine ⟨?_, ?_, ?_⟩
  · simp only [calculateGCPriority]
    ring
  · simp only [calculateIssyPriority]
    ring
  · simp only [calculateRemotePriority]
    ring

/-- C4: on every BubbleLux date that is a business day of the target month,
every roster person not absent on that date receives the ISSY tag, and the
running issy counter with which generateSchedule seeds the greedy phase
(initialActual) counts exactly one credit per BubbleLux date the person is
not absent on.  The hypotheses `hsub` and `hbnd` say the all-hands set is
well formed (at most-two distinct dates within the month, §6), so each
counted date is indeed such a business day. -/
theorem C4_bubbleLux_forces_issy_and_seeds_counter (monthDays bubbleLuxDates : List Day)
    (oooData : OOOData) (people : List Person) (p : Person) (d : Day)
    (hids : (people.map Person.id).Nodup) (hp : p ∈ people)
    (_hsub : ∀ b ∈ bubbleLuxDates, b ∈ monthDays) (_hbnd : bubbleLuxDates.Nodup)
    (hd : d ∈ bubbleLuxDates) (hdm : d ∈ monthDays)
    (habs : ∀ ds, (p.id, ds) ∈ oooData → d ∉ ds) :
    planCell (generateSchedule monthDays bubbleLuxDates oooData people).plan d p.id =
        some Site.ISSY ∧
      (initialActual bubbleLuxDates oooData p.id).issy =
        ((bubbleLuxDates.filter
          (fun iso => decide (iso ∉ oooDates oooData p.id))).length : Int) := by
  constructor
  · have hcell0 : planCell (initialPlan monthDays people) d p.id = some Site.REMOTE := by
      rw [planCell, planGet_initialPlan people hdm]
      exact recordGet_initRow hp
    have hcell1 : planCell (applyOOO (initialPlan monthDays people) oooData) d p.id =
        some Site.REMOTE := by
      rw [applyOOO_cell_other habs]
      exact hcell0
    have hpres1 : planGet (applyOOO (initialPlan monthDays people) oooData) d ≠ none := by
      apply planGet_isSome_of_keys
      rw [applyOOO_keys, initialPlan_keys]
      exact hdm
    have hcell2 : planCell (applyBubbleLux (applyOOO (initialPlan monthDays people) oooData)
        bubbleLuxDates people) d p.id = some Site.ISSY :=
      applyBubbleLux_sets hids hp hd hpres1 (Or.inl hcell1)
    obtain ⟨row, hrow, hget⟩ := planCell_eq_some.mp hcell2
    simp only [generateSchedule]
    rw [planCell, runDays_get_bubble hrow (List.elem_eq_true_of_mem hd)]
    exact hget
  · rw [initialActual]
    have : (fun iso => !((oooDates oooData p.id).contains iso)) =
        (fun iso => decide (iso ∉ oooDates oooData p.id)) := by
      funext iso
      rw [contains_eq_decide_mem, decide_not]
    rw [this]

/-- Witness for C4 at a concrete input: the single month day is a BubbleLux
day; person b (not absent) is at Issy and has one seeded issy credit. -/
theorem C4_bubbleLux_forces_issy_and_seeds_counter_witness :
    planCell (generateSchedule [chars ("m")] [chars ("m")] [(chars ("a"), [chars ("m")])]
      [⟨chars ("a"), chars ("A"), ⟨0, 50, 50⟩⟩, ⟨chars ("b"), chars ("B"), ⟨90, 5, 5⟩⟩]).plan
        (chars ("m")) (chars ("b")) = some Site.ISSY ∧
      (initialActual [chars ("m")] [(chars ("a"), [chars ("m")])] (chars ("b"))).issy =
        ((([chars ("m")] : List Day).filter
          (fun iso => decide (iso ∉ oooDates [(chars ("a"), [chars ("m")])]
            (chars ("b"))))).length : Int) :=
  C4_bubbleLux_forces_issy_and_seeds_counter [chars ("m")] [chars ("m")]
    [(chars ("a"), [chars ("m")])]
    [⟨chars ("a"), chars ("A"), ⟨0, 50, 50⟩⟩, ⟨chars ("b"), chars ("B"), ⟨90, 5, 5⟩⟩]
    ⟨chars ("b"), chars ("B"), ⟨90, 5, 5⟩⟩ (chars ("m")) (by decide) (by decide) (by decide)
    (by decide) (by decide) (by decide)
    (by
      intro ds hmem
      rcases List.mem_cons.mp hmem with h | h
      · have h2 : chars ("b") = chars ("a") := congrArg Prod.fst h
        exact absurd h2 (by decide)
      · cases h)

/-- C10: a BubbleLux date that is not one of the month's business days
produces no plan row, yet still credits the issy counter of every person
not absent on it, and this changes the generated table relative to leaving
the date out, witnessed by a concrete two-person roster for which the date
flips both step-2 routing decisions from Issy to remote. -/
theorem C10_out_of_month_bubbleLux_biases_deficits (monthDays bubbleLuxDates : List Day)
    (oooData : OOOData) (people : List Person) (d : Day) (pid : PersonId)
    (hd : d ∉ monthDays) (habs : d ∉ oooDates oooData pid) :
    planGet (generateSchedule monthDays bubbleLuxDates oooData people).plan d = none ∧
      (initialActual (bubbleLuxDates ++ [d]) oooData pid).issy =
        (initialActual bubbleLuxDates oooData pid).issy + 1 ∧
      generateSchedule [chars ("m")] [chars ("z")] []
          [⟨chars ("a"), chars ("A"), ⟨0, 50, 50⟩⟩, ⟨chars ("b"), chars ("B"), ⟨0, 50, 50⟩⟩] ≠
        generateSchedule [chars ("m")] [] []
          [⟨chars ("a"), chars ("A"), ⟨0, 50, 50⟩⟩, ⟨chars ("b"), chars ("B"), ⟨0, 50, 50⟩⟩] := by
  refine ⟨?_, ?_, ?_⟩
  · rw [planGet_eq_none_iff]
    simp only [generateSchedule]
    rw [runDays_keys, applyBubbleLux_keys, applyOOO_keys, initialPlan_keys]
    exact hd
  · simp only [initialActual]
    rw [List.filter_append]
    have : ([d].filter (fun iso => !((oooDates oooData pid).contains iso))) = [d] := by
      rw [List.filter_cons]
      simp [contains_eq_decide_mem, habs]
    rw [this, List.length_append, List.length_singleton]
    push_cast
    ring
  · with_unfolding_all decide

/-- Witness for C10 at a concrete out-of-month date. -/
theorem C10_out_of_month_bubbleLux_biases_deficits_witness :
    planGet (generateSchedule [chars ("m")] [chars ("z")] []
      [⟨chars ("a"), chars ("A"), ⟨0, 50, 50⟩⟩]).plan (chars ("z")) = none ∧
      (initialActual ([chars ("z")] ++ [chars ("z")]) [] (chars ("a"))).issy =
        (initialActual [chars ("z")] [] (chars ("a"))).issy + 1 ∧
      generateSchedule [chars ("m")] [chars ("z")] []
          [⟨chars ("a"), chars ("A"), ⟨0, 50, 50⟩⟩, ⟨chars ("b"), chars ("B"), ⟨0, 50, 50⟩⟩] ≠
        generateSchedule [chars ("m")] [] []
          [⟨chars ("a"), chars ("A"), ⟨0, 50, 50⟩⟩, ⟨chars ("b"), chars ("B"), ⟨0, 50, 50⟩⟩] :=
  C10_out_of_month_bubbleLux_biases_deficits [chars ("m")] [chars ("z")] []
    [⟨chars ("a"), chars ("A"), ⟨0, 50, 50⟩⟩] (chars ("z")) (chars ("a"))
    (by decide) (by decide)

/-! Occupancy bookkeeping for the per-day state machine. -/

theorem dayUsage_eq_zero_of_vals {row : Row} {s : Site}
    (h : ∀ c ∈ row, c.2 ≠ s) : dayUsage row s = 0 := by
  rw [dayUsage, List.length_eq_zero, List.filter_eq_nil_iff]
  intro c hc
  simp only [decide_eq_true_eq]
  exact h c hc

theorem planGet_of_mem {pl : Plan} {d : Day} {row : Row}
    (hnd : (pl.map Prod.fst).Nodup) (h : (d, row) ∈ pl) : planGet pl d = some row := by
  induction pl with
  | nil => cases h
  | cons e rest ih =>
    rw [List.map_cons, List.nodup_cons] at hnd
    rcases List.mem_cons.mp h with h1 | h1
    · rw [← h1]
      simp [planGet]
    · have hne : e.1 ≠ d := by
        intro he
        exact hnd.1 (List.mem_map.mpr ⟨(d, row), h1, he.symm⟩)
      rw [planGet, if_neg hne]
      exact ih hnd.2 h1

theorem gcAssignLoop_mem {P : PersonId → Prop} {cands : List (Person × ℚ)} {row : Row}
    {act : Actual} (hc : ∀ c ∈ cands, P c.1.id) :
    ∀ c' ∈ (gcAssignLoop cands row act).1, c' ∈ row ∨ (c'.2 = Site.GC ∧ P c'.1) := by
  induction cands generalizing row act with
  | nil => intro c' h'; exact Or.inl h'
  | cons c rest ih =>
    intro c' h'
    rw [gcAssignLoop] at h'
    by_cases h5 : SITES_GC_capacity ≤ dayUsage row Site.GC
    · rw [if_pos h5] at h'
      exact Or.inl h'
    · rw [if_neg h5] at h'
      by_cases hpos : 0 < c.2
      · rw [if_pos hpos] at h'
        rcases ih (fun c0 hc0 => hc c0 (List.mem_cons_of_mem _ hc0)) c' h' with h2 | h2
        · rcases mem_recordSet h2 with h3 | h3
          · exact Or.inl h3
          · refine Or.inr ⟨by rw [h3], ?_⟩
            rw [h3]
            exact hc c (List.mem_cons_self _ _)
        · exact Or.inr h2
      · rw [if_neg hpos] at h'
        exact ih (fun c0 hc0 => hc c0 (List.mem_cons_of_mem _ hc0)) c' h'

theorem topUpFold_mem {P : PersonId → Prop} {L : List Person} {row : Row} {act : Actual}
    (hc : ∀ p ∈ L, P p.id) :
    ∀ c' ∈ (L.foldl topUpStep (row, act)).1, c' ∈ row ∨ (c'.2 = Site.GC ∧ P c'.1) := by
  induction L generalizing row act with
  | nil => intro c' h'; exact Or.inl h'
  | cons p rest ih =>
    intro c' h'
    rw [List.foldl_cons] at h'
    rcases ih (fun p0 hp0 => hc p0 (List.mem_cons_of_mem _ hp0)) c' h' with h2 | h2
    · rcases mem_recordSet h2 with h3 | h3
      · exact Or.inl h3
      · refine Or.inr ⟨by rw [h3], ?_⟩
        rw [h3]
        exact hc p (List.mem_cons_self _ _)
    · exact Or.inr h2

theorem gcAssignLoop_usage_le (cands : List (Person × ℚ)) (row : Row) (act : Actual)
    (hcd : (cands.map (fun c => c.1.id)).Nodup)
    (hcr : ∀ c ∈ cands, recordGet row c.1.id = some Site.REMOTE)
    (hcap : dayUsage row Site.GC ≤ SITES_GC_capacity) :
    dayUsage ((gcAssignLoop cands row act).1) Site.GC ≤ SITES_GC_capacity := by
  induction cands generalizing row act with
  | nil => exact hcap
  | cons c rest ih =>
    rw [gcAssignLoop]
    by_cases h5 : SITES_GC_capacity ≤ dayUsage row Site.GC
    · rw [if_pos h5]
      exact hcap
    · rw [if_neg h5]
      rw [List.map_cons, List.nodup_cons] at hcd
      by_cases hpos : 0 < c.2
      · rw [if_pos hpos]
        have hget := hcr c (List.mem_cons_self _ _)
        have husage := dayUsage_recordSet hget Site.GC Site.GC
        refine ih _ _ hcd.2 ?_ ?_
        · intro c0 hc0
          rw [recordGet_set_ne row Site.GC
            (fun he => hcd.1 (List.mem_map.mpr ⟨c0, hc0, he⟩))]
          exact hcr c0 (List.mem_cons_of_mem _ hc0)
        · simp at husage
          omega
      · rw [if_neg hpos]
        exact ih _ _ hcd.2 (fun c0 hc0 => hcr c0 (List.mem_cons_of_mem _ hc0)) hcap

theorem topUpFold_usage (L : List Person) (row : Row) (act : Actual)
    (hnd : (L.map Person.id).Nodup)
    (hall : ∀ p ∈ L, recordGet row p.id = some Site.REMOTE) :
    dayUsage ((L.foldl topUpStep (row, act)).1) Site.GC = dayUsage row Site.GC + L.length := by
  induction L generalizing row act with
  | nil => rfl
  | cons p rest ih =>
    rw [List.foldl_cons, List.length_cons]
    rw [List.map_cons, List.nodup_cons] at hnd
    have hget := hall p (List.mem_cons_self _ _)
    have husage := dayUsage_recordSet hget Site.GC Site.GC
    simp at husage
    have hrec := ih (recordSet row p.id Site.GC) (updateActual act p.id bumpGC) hnd.2
      (fun p0 hp0 => by
        rw [recordGet_set_ne row Site.GC
          (fun he => hnd.1 (List.mem_map.mpr ⟨p0, hp0, he⟩))]
        exact hall p0 (List.mem_cons_of_mem _ hp0))
    show dayUsage ((rest.foldl topUpStep
      (recordSet row p.id Site.GC, updateActual act p.id bumpGC)).1) Site.GC = _
    rw [hrec]
    omega

theorem topUpFold_get_ne (L : List Person) (row : Row) (act : Actual) {k : PersonId}
    (h : ∀ p ∈ L, p.id ≠ k) :
    recordGet ((L.foldl topUpStep (row, act)).1) k = recordGet row k := by
  induction L generalizing row act with
  | nil => rfl
  | cons p rest ih =>
    rw [List.foldl_cons]
    have := ih (recordSet row p.id Site.GC) (updateActual act p.id bumpGC)
      (fun p0 hp0 => h p0 (List.mem_cons_of_mem _ hp0))
    show recordGet ((rest.foldl topUpStep
      (recordSet row p.id Site.GC, updateActual act p.id bumpGC)).1) k = _
    rw [this]
    exact recordGet_set_ne row Site.GC (Ne.symm (h p (List.mem_cons_self _ _)))

theorem topUpFold_assigned (L : List Person) (row : Row) (act : Actual)
    (hnd : (L.map Person.id).Nodup)
    (hall : ∀ p ∈ L, recordGet row p.id = some Site.REMOTE) :
    ∀ p ∈ L, recordGet ((L.foldl topUpStep (row, act)).1) p.id = some Site.GC := by
  induction L generalizing row act with
  | nil => intro p hp; cases hp
  | cons p0 rest ih =>
    intro p hp
    rw [List.foldl_cons]
    rw [List.map_cons, List.nodup_cons] at hnd
    rcases List.mem_cons.mp hp with h1 | h1
    · rw [h1]
      show recordGet ((rest.foldl topUpStep
        (recordSet row p0.id Site.GC, updateActual act p0.id bumpGC)).1) p0.id = some Site.GC
      rw [topUpFold_get_ne rest _ _
        (fun q hq he => hnd.1 (List.mem_map.mpr ⟨q, hq, he⟩))]
      exact recordGet_set_self row p0.id Site.GC
    · refine ih (recordSet row p0.id Site.GC) (updateActual act p0.id bumpGC) hnd.2 ?_ p h1
      intro q hq
      rw [recordGet_set_ne row Site.GC (fun he => hnd.1 (List.mem_map.mpr ⟨q, hq, he⟩))]
      exact hall q (List.mem_cons_of_mem _ hq)

theorem routeFold_usageGC (target : Person → Counters) (L : List Person) (row : Row)
    (act : Actual) (hnd : (L.map Person.id).Nodup)
    (hall : ∀ p ∈ L, recordGet row p.id = some Site.REMOTE) :
    dayUsage ((L.foldl (routeStep target) (row, act)).1) Site.GC = dayUsage row Site.GC := by
  induction L generalizing row act with
  | nil => rfl
  | cons p rest ih =>
    rw [List.foldl_cons]
    rw [List.map_cons, List.nodup_cons] at hnd
    obtain ⟨hrow, hsite⟩ := routeStep_row target (row, act) p
    have hget := hall p (List.mem_cons_self _ _)
    have hall' : ∀ q ∈ rest,
        recordGet (routeStep target (row, act) p).1 q.id = some Site.REMOTE := by
      intro q hq
      rw [hrow, recordGet_set_ne row _ (fun he => hnd.1 (List.mem_map.mpr ⟨q, hq, he⟩))]
      exact hall q (List.mem_cons_of_mem _ hq)
    have hrec := ih (routeStep target (row, act) p).1 (routeStep target (row, act) p).2
      hnd.2 hall'
    show dayUsage ((rest.foldl (routeStep target)
      ((routeStep target (row, act) p).1, (routeStep target (row, act) p).2)).1) Site.GC = _
    rcases hsite with h | h
    · rw [hrec, hrow, h]
      show dayUsage (recordSet row p.id Site.ISSY) Site.GC = dayUsage row Site.GC
      have husage := dayUsage_recordSet hget Site.ISSY Site.GC
      simp at husage
      omega
    · rw [hrec, hrow, h]
      show dayUsage (recordSet row p.id Site.REMOTE) Site.GC = dayUsage row Site.GC
      have husage := dayUsage_recordSet hget Site.REMOTE Site.GC
      simp at husage
      omega

theorem issyRemoteRoute_usageGC (people : List Person) (target : Person → Counters) (row : Row)
    (act : Actual) (hids : (people.map Person.id).Nodup) :
    dayUsage ((issyRemoteRoute people target row act).1) Site.GC = dayUsage row Site.GC := by
  rw [issyRemoteRoute]
  apply routeFold_usageGC
  · exact ((List.filter_sublist _).map Person.id).nodup hids
  · intro p hp
    exact (mem_routeFilter hp).2

theorem loneIssyFix_usageGC (row : Row) (act : Actual) (hWF : (row.map Prod.fst).Nodup) :
    dayUsage ((loneIssyFix row act).1) Site.GC = dayUsage row Site.GC := by
  rw [loneIssyFix]
  cases hf : row.filter (fun c => decide (c.2 = Site.ISSY)) with
  | nil => rfl
  | cons c rest =>
    cases rest with
    | nil =>
      have hmem := List.mem_filter.mp (hf ▸ List.mem_cons_self c [])
      have hISSY : c.2 = Site.ISSY := of_decide_eq_true hmem.2
      have hget : recordGet row c.1 = some c.2 := recordGet_of_mem hWF (by
        cases c
        exact hmem.1)
      rw [hISSY] at hget
      have husage := dayUsage_recordSet hget Site.REMOTE Site.GC
      simp at husage
      show dayUsage (recordSet row c.1 Site.REMOTE) Site.GC = _
      omega
    | cons c2 rest2 => rfl

theorem loneIssyFix_issy_ne_one (row : Row) (act : Actual)
    (hWF : (row.map Prod.fst).Nodup) :
    dayUsage ((loneIssyFix row act).1) Site.ISSY ≠ 1 := by
  rw [loneIssyFix]
  cases hf : row.filter (fun c => decide (c.2 = Site.ISSY)) with
  | nil =>
    show dayUsage row Site.ISSY ≠ 1
    rw [dayUsage, hf]
    simp
  | cons c rest =>
    cases rest with
    | nil =>
      have hmem := List.mem_filter.mp (hf ▸ List.mem_cons_self c [])
      have hISSY : c.2 = Site.ISSY := of_decide_eq_true hmem.2
      have hget : recordGet row c.1 = some c.2 := recordGet_of_mem hWF (by
        cases c
        exact hmem.1)
      rw [hISSY] at hget
      have hold : dayUsage row Site.ISSY = 1 := by
        rw [dayUsage, hf]
        rfl
      have husage := dayUsage_recordSet hget Site.REMOTE Site.ISSY
      simp at husage
      show dayUsage (recordSet row c.1 Site.REMOTE) Site.ISSY ≠ 1
      omega
    | cons c2 rest2 =>
      show dayUsage row Site.ISSY ≠ 1
      rw [dayUsage, hf]
      simp

theorem gcCandidates_ids_nodup (people : List Person) (target : Person → Counters) (row : Row)
    (act : Actual) (hids : (people.map Person.id).Nodup) :
    ((gcCandidates people target row act).map (fun c => c.1.id)).Nodup := by
  have hsub : ((people.filter
      (fun p => decide (recordGet row p.id = some Site.REMOTE))).map Person.id).Nodup :=
    ((List.filter_sublist _).map Person.id).nodup hids
  have hperm : ((gcCandidates people target row act).map (fun c => c.1.id)).Perm
      ((people.filter (fun p => decide (recordGet row p.id = some Site.REMOTE))).map
        Person.id) := by
    rw [gcCandidates]
    have h1 := (sortByDesc_perm (fun c : Person × ℚ => c.2)
      ((people.filter (fun p => decide (recordGet row p.id = some Site.REMOTE))).map
        (fun p => (p, calculateGCPriority p (act p.id) (target p))))).map (fun c => c.1.id)
    refine h1.trans ?_
    rw [List.map_map]
    exact List.Perm.refl _
  exact hperm.symm.nodup hsub

theorem availableForGC_ids_nodup (people : List Person) (target : Person → Counters)
    (row : Row) (act : Actual) (hids : (people.map Person.id).Nodup) :
    ((availableForGC people target row act).map Person.id).Nodup := by
  have hsub : ((people.filter
      (fun p => decide (recordGet row p.id = some Site.REMOTE))).map Person.id).Nodup :=
    ((List.filter_sublist _).map Person.id).nodup hids
  have hperm := (sortByDesc_perm
    (fun p => calculateGCPriority p (act p.id) (target p))
    (people.filter (fun p => decide (recordGet row p.id = some Site.REMOTE)))).map Person.id
  rw [availableForGC]
  exact hperm.symm.nodup hsub

theorem gcFloorTopUp_eq_pos (people : List Person) (target : Person → Counters) (row : Row)
    (act : Actual) (h : 0 < dayUsage row Site.GC ∧ dayUsage row Site.GC < 3) :
    gcFloorTopUp people target row act =
      ((availableForGC people target row act).take (3 - dayUsage row Site.GC)).foldl
        topUpStep (row, act) := by
  rw [gcFloorTopUp]
  rw [if_pos h]

theorem gcFloorTopUp_eq_neg (people : List Person) (target : Person → Counters) (row : Row)
    (act : Actual) (h : ¬(0 < dayUsage row Site.GC ∧ dayUsage row Site.GC < 3)) :
    gcFloorTopUp people target row act = (row, act) := by
  rw [gcFloorTopUp]
  rw [if_neg h]

theorem issyRemoteRoute_eq_of_noRemote (people : List Person) (target : Person → Counters)
    (row : Row) (act : Actual)
    (h : ∀ p ∈ people, ¬ recordGet row p.id = some Site.REMOTE) :
    issyRemoteRoute people target row act = (row, act) := by
  rw [issyRemoteRoute]
  have hf : people.filter (fun p => decide (recordGet row p.id = some Site.REMOTE)) = [] := by
    rw [List.filter_eq_nil_iff]
    intro p hp
    simp only [decide_eq_true_eq]
    exact h p hp
  rw [hf]
  rfl

theorem loneIssyFix_eq_of_noIssy (row : Row) (act : Actual)
    (h : dayUsage row Site.ISSY = 0) :
    loneIssyFix row act = (row, act) := by
  rw [loneIssyFix]
  rw [dayUsage] at h
  rw [List.length_eq_zero] at h
  rw [h]

theorem afterStep1_spec (people : List Person) (target : Person → Counters) (row1 : Row)
    (act1 : Actual) (hids : (people.map Person.id).Nodup)
    (hWF1 : (row1.map Prod.fst).Nodup)
    (hu1 : dayUsage row1 Site.GC ≤ SITES_GC_capacity)
    (hvals1 : ∀ c ∈ row1, c.2 = Site.REMOTE ∨ c.2 = Site.OOO ∨ c.2 = Site.GC)
    (hroster1 : ∀ c ∈ row1, c.2 = Site.REMOTE → c.1 ∈ people.map Person.id) :
    dayUsage ((loneIssyFix
        (issyRemoteRoute people target (gcFloorTopUp people target row1 act1).1
          (gcFloorTopUp people target row1 act1).2).1
        (issyRemoteRoute people target (gcFloorTopUp people target row1 act1).1
          (gcFloorTopUp people target row1 act1).2).2).1) Site.GC ≤ SITES_GC_capacity ∧
      (dayUsage ((loneIssyFix
        (issyRemoteRoute people target (gcFloorTopUp people target row1 act1).1
          (gcFloorTopUp people target row1 act1).2).1
        (issyRemoteRoute people target (gcFloorTopUp people target row1 act1).1
          (gcFloorTopUp people target row1 act1).2).2).1) Site.GC = 0 ∨
        3 ≤ dayUsage ((loneIssyFix
          (issyRemoteRoute people target (gcFloorTopUp people target row1 act1).1
            (gcFloorTopUp people target row1 act1).2).1
          (issyRemoteRoute people target (gcFloorTopUp people target row1 act1).1
            (gcFloorTopUp people target row1 act1).2).2).1) Site.GC ∨
        (dayUsage ((loneIssyFix
          (issyRemoteRoute people target (gcFloorTopUp people target row1 act1).1
            (gcFloorTopUp people target row1 act1).2).1
          (issyRemoteRoute people target (gcFloorTopUp people target row1 act1).1
            (gcFloorTopUp people target row1 act1).2).2).1) Site.ISSY = 0 ∧
          dayUsage ((loneIssyFix
          (issyRemoteRoute people target (gcFloorTopUp people target row1 act1).1
            (gcFloorTopUp people target row1 act1).2).1
          (issyRemoteRoute people target (gcFloorTopUp people target row1 act1).1
            (gcFloorTopUp people target row1 act1).2).2).1) Site.REMOTE = 0)) ∧
      dayUsage ((loneIssyFix
        (issyRemoteRoute people target (gcFloorTopUp people target row1 act1).1
          (gcFloorTopUp people target row1 act1).2).1
        (issyRemoteRoute people target (gcFloorTopUp people target row1 act1).1
          (gcFloorTopUp people target row1 act1).2).2).1) Site.ISSY ≠ 1 := by
  by_cases h15 : 0 < dayUsage row1 Site.GC ∧ dayUsage row1 Site.GC < 3
  · rw [gcFloorTopUp_eq_pos people target row1 act1 h15]
    by_cases hlen : 3 - dayUsage row1 Site.GC ≤ (availableForGC people target row1 act1).length
    · have hnd : (((availableForGC people target row1 act1).take
          (3 - dayUsage row1 Site.GC)).map Person.id).Nodup :=
        ((List.take_sublist _ _).map Person.id).nodup
          (availableForGC_ids_nodup people target row1 act1 hids)
      have hall : ∀ p ∈ (availableForGC people target row1 act1).take
          (3 - dayUsage row1 Site.GC), recordGet row1 p.id = some Site.REMOTE :=
        fun p hp => (mem_availableForGC (List.take_subset _ _ hp)).2
      have htake_len : ((availableForGC people target row1 act1).take
          (3 - dayUsage row1 Site.GC)).length = 3 - dayUsage row1 Site.GC := by
        rw [List.length_take]
        omega
      have hu15 : dayUsage ((((availableForGC people target row1 act1).take
          (3 - dayUsage row1 Site.GC)).foldl topUpStep (row1, act1)).1) Site.GC = 3 := by
        rw [topUpFold_usage _ _ _ hnd hall, htake_len]
        omega
      have hkeys15 := topUpFold_keys ((availableForGC people target row1 act1).take
          (3 - dayUsage row1 Site.GC)) row1 act1
        (fun p hp => mem_keys_of_recordGet (hall p hp))
      have hWF15 : (((((availableForGC people target row1 act1).take
          (3 - dayUsage row1 Site.GC)).foldl topUpStep (row1, act1)).1).map
            Prod.fst).Nodup := by
        rw [hkeys15]
        exact hWF1
      have hWF2 : (((issyRemoteRoute people target
          ((((availableForGC people target row1 act1).take
            (3 - dayUsage row1 Site.GC)).foldl topUpStep (row1, act1)).1)
          ((((availableForGC people target row1 act1).take
            (3 - dayUsage row1 Site.GC)).foldl topUpStep (row1, act1)).2)).1).map
            Prod.fst).Nodup := by
        rw [issyRemoteRoute_keys]
        exact hWF15
      refine ⟨?_, ?_, ?_⟩
      · rw [loneIssyFix_usageGC _ _ hWF2, issyRemoteRoute_usageGC _ _ _ _ hids, hu15]
        simp [SITES_GC_capacity]
      · right
        left
        rw [loneIssyFix_usageGC _ _ hWF2, issyRemoteRoute_usageGC _ _ _ _ hids, hu15]
      · exact loneIssyFix_issy_ne_one _ _ hWF2
    · have htake_all : (availableForGC people target row1 act1).take
          (3 - dayUsage row1 Site.GC) = availableForGC people target row1 act1 :=
        List.take_of_length_le (by omega)
      rw [htake_all]
      have hnd : ((availableForGC people target row1 act1).map Person.id).Nodup :=
        availableForGC_ids_nodup people target row1 act1 hids
      have hall : ∀ p ∈ availableForGC people target row1 act1,
          recordGet row1 p.id = some Site.REMOTE := fun p hp => (mem_availableForGC hp).2
      have hkeys15 := topUpFold_keys (availableForGC people target row1 act1) row1 act1
        (fun p hp => mem_keys_of_recordGet (hall p hp))
      have hWF15 : ((((availableForGC people target row1 act1).foldl topUpStep
          (row1, act1)).1).map Prod.fst).Nodup := by
        rw [hkeys15]
        exact hWF1
      have hu15 : dayUsage (((availableForGC people target row1 act1).foldl topUpStep
          (row1, act1)).1) Site.GC =
          dayUsage row1 Site.GC + (availableForGC people target row1 act1).length :=
        topUpFold_usage _ _ _ hnd hall
      have hmem15 := @topUpFold_mem (fun k => k ∈ people.map Person.id)
        (availableForGC people target row1 act1) row1 act1
        (fun p hp => List.mem_map.mpr ⟨p, (mem_availableForGC hp).1, rfl⟩)
      have hnoRem : ∀ c ∈ ((availableForGC people target row1 act1).foldl topUpStep
          (row1, act1)).1, c.2 ≠ Site.REMOTE := by
        intro c hc hR
        rcases hmem15 c hc with h1 | h1
        · obtain ⟨q, hq, hqid⟩ := List.mem_map.mp (hroster1 c h1 hR)
          have hcpair : (c.1, Site.REMOTE) = c := by
            obtain ⟨ca, cb⟩ := c
            simp only at hR
            rw [hR]
          have hget1 : recordGet row1 c.1 = some Site.REMOTE :=
            recordGet_of_mem hWF1 (hcpair ▸ h1)
          have hqrem : recordGet row1 q.id = some Site.REMOTE := by
            rw [hqid]
            exact hget1
          have hqavail : q ∈ availableForGC people target row1 act1 := by
            rw [availableForGC, mem_sortByDesc]
            exact List.mem_filter.mpr ⟨hq, decide_eq_true hqrem⟩
          have hassigned := topUpFold_assigned _ row1 act1 hnd hall q hqavail
          have hget15 : recordGet (((availableForGC people target row1 act1).foldl topUpStep
              (row1, act1)).1) c.1 = some Site.REMOTE :=
            recordGet_of_mem hWF15 (hcpair ▸ hc)
          rw [hqid] at hassigned
          rw [hassigned] at hget15
          cases hget15
        · rw [hR] at h1
          cases h1.1
      have hnoP : ∀ p ∈ people,
          ¬ recordGet (((availableForGC people target row1 act1).foldl topUpStep
            (row1, act1)).1) p.id = some Site.REMOTE := by
        intro p hp hg
        exact hnoRem (p.id, Site.REMOTE) (mem_of_recordGet hg) rfl
      rw [issyRemoteRoute_eq_of_noRemote people target _ _ hnoP]
      have hvals15 : ∀ c ∈ ((availableForGC people target row1 act1).foldl topUpStep
          (row1, act1)).1, c.2 ≠ Site.ISSY := by
        intro c hc hI
        rcases hmem15 c hc with h1 | h1
        · rcases hvals1 c h1 with h3 | h3 | h3 <;> rw [hI] at h3 <;> cases h3
        · rw [hI] at h1
          cases h1.1
      have hissy0 : dayUsage (((availableForGC people target row1 act1).foldl topUpStep
          (row1, act1)).1) Site.ISSY = 0 := dayUsage_eq_zero_of_vals hvals15
      rw [loneIssyFix_eq_of_noIssy _ _ hissy0]
      refine ⟨?_, ?_, ?_⟩
      · show dayUsage (((availableForGC people target row1 act1).foldl topUpStep
          (row1, act1)).1) Site.GC ≤ SITES_GC_capacity
        rw [hu15]
        simp only [SITES_GC_capacity]
        omega
      · right
        right
        exact ⟨hissy0, dayUsage_eq_zero_of_vals hnoRem⟩
      · show dayUsage (((availableForGC people target row1 act1).foldl topUpStep
          (row1, act1)).1) Site.ISSY ≠ 1
        rw [hissy0]
        simp
  · rw [gcFloorTopUp_eq_neg people target row1 act1 h15]
    have hWF2 : (((issyRemoteRoute people target row1 act1).1).map Prod.fst).Nodup := by
      rw [issyRemoteRoute_keys]
      exact hWF1
    refine ⟨?_, ?_, ?_⟩
    · rw [loneIssyFix_usageGC _ _ hWF2, issyRemoteRoute_usageGC _ _ _ _ hids]
      exact hu1
    · rw [loneIssyFix_usageGC _ _ hWF2, issyRemoteRoute_usageGC _ _ _ _ hids]
      rcases Nat.eq_zero_or_pos (dayUsage row1 Site.GC) with h | h
      · left
        exact h
      · right
        left
        omega
    · exact loneIssyFix_issy_ne_one _ _ hWF2

theorem mem_bubbleRow {people : List Person} {row : Row} {c : PersonId × Site}
    (h : c ∈ bubbleRow people row) : c ∈ row ∨ c.2 = Site.ISSY := by
  rw [bubbleRow] at h
  induction people generalizing row with
  | nil => exact Or.inl h
  | cons p rest ih =>
    rw [List.foldl_cons] at h
    rcases ih h with h1 | h1
    · rw [bubbleStep] at h1
      by_cases hc : recordGet row p.id ≠ some Site.OOO
      · rw [if_pos hc] at h1
        rcases mem_recordSet h1 with h2 | h2
        · exact Or.inl h2
        · right
          rw [h2]
      · rw [if_neg hc] at h1
        exact Or.inl h1
    · exact Or.inr h1

theorem mem_initRow {people : List Person} {c : PersonId × Site}
    (h : c ∈ people.map (fun p => (p.id, Site.REMOTE))) :
    ∃ q ∈ people, c = (q.id, Site.REMOTE) := by
  obtain ⟨q, hq, hqc⟩ := List.mem_map.mp h
  exact ⟨q, hq, hqc.symm⟩

theorem overlay1_inv (monthDays : List Day) (oooData : OOOData) (people : List Person) :
    ∀ e ∈ applyOOO (initialPlan monthDays people) oooData,
      ((∀ c ∈ e.2, c.2 = Site.REMOTE ∨ c.2 = Site.OOO) ∧
        (∀ c ∈ e.2, c.2 ≠ Site.OOO → c.1 ∈ people.map Person.id)) := by
  apply applyOOO_pres (fun row => (∀ c ∈ row, c.2 = Site.REMOTE ∨ c.2 = Site.OOO) ∧
    (∀ c ∈ row, c.2 ≠ Site.OOO → c.1 ∈ people.map Person.id))
  · intro row k hrow
    constructor
    · intro c hc
      rcases mem_recordSet hc with h1 | h1
      · exact hrow.1 c h1
      · right
        rw [h1]
    · intro c hc hco
      rcases mem_recordSet hc with h1 | h1
      · exact hrow.2 c h1 hco
      · rw [h1] at hco
        exact absurd rfl hco
  · intro e he
    have h2 := mem_initialPlan he
    constructor
    · intro c hc
      rw [h2] at hc
      obtain ⟨q, _, hqc⟩ := mem_initRow hc
      left
      rw [hqc]
    · intro c hc _
      rw [h2] at hc
      obtain ⟨q, hq, hqc⟩ := mem_initRow hc
      rw [hqc]
      exact List.mem_map.mpr ⟨q, hq, rfl⟩

theorem overlay2_vals (monthDays bubbleLuxDates : List Day) (oooData : OOOData)
    (people : List Person) :
    ∀ e ∈ applyBubbleLux (applyOOO (initialPlan monthDays people) oooData)
        bubbleLuxDates people,
      ∀ c ∈ e.2, c.2 = Site.REMOTE ∨ c.2 = Site.OOO ∨ c.2 = Site.ISSY := by
  apply applyBubbleLux_pres
    (fun row => ∀ c ∈ row, c.2 = Site.REMOTE ∨ c.2 = Site.OOO ∨ c.2 = Site.ISSY)
  · intro row hrow c hc
    rcases mem_bubbleRow hc with h1 | h1
    · exact hrow c h1
    · exact Or.inr (Or.inr h1)
  · intro e he c hc
    rcases (overlay1_inv monthDays oooData people e he).1 c hc with h | h
    · exact Or.inl h
    · exact Or.inr (Or.inl h)

theorem processDay_spec (people : List Person) (target : Person → Counters) (row : Row)
    (act : Actual) (hids : (people.map Person.id).Nodup)
    (hWF : (row.map Prod.fst).Nodup)
    (hvals : ∀ c ∈ row, c.2 = Site.REMOTE ∨ c.2 = Site.OOO)
    (hroster : ∀ c ∈ row, c.2 ≠ Site.OOO → c.1 ∈ people.map Person.id) :
    dayUsage ((processDay people target row act).1) Site.GC ≤ SITES_GC_capacity ∧
      (dayUsage ((processDay people target row act).1) Site.GC = 0 ∨
        3 ≤ dayUsage ((processDay people target row act).1) Site.GC ∨
        (dayUsage ((processDay people target row act).1) Site.ISSY = 0 ∧
          dayUsage ((processDay people target row act).1) Site.REMOTE = 0)) ∧
      dayUsage ((processDay people target row act).1) Site.ISSY ≠ 1 := by
  have hcand_rem : ∀ c ∈ gcCandidates people target row act,
      recordGet row c.1.id = some Site.REMOTE := fun c hc => (mem_gcCandidates hc).2
  have hu0 : dayUsage row Site.GC = 0 := dayUsage_eq_zero_of_vals (by
    intro c hc h
    rcases hvals c hc with h2 | h2 <;> rw [h] at h2 <;> cases h2)
  have hkeys1 := gcAssignLoop_keys (gcCandidates people target row act) row act
    (fun c hc => mem_keys_of_recordGet (hcand_rem c hc))
  have hWF1 : (((gcAssignLoop (gcCandidates people target row act) row act).1).map
      Prod.fst).Nodup := by
    rw [hkeys1]
    exact hWF
  have hu1 := gcAssignLoop_usage_le (gcCandidates people target row act) row act
    (gcCandidates_ids_nodup people target row act hids) hcand_rem
    (by rw [hu0]; simp)
  have hmem1 := @gcAssignLoop_mem (fun k => k ∈ people.map Person.id)
    (gcCandidates people target row act) row act
    (fun c hc => List.mem_map.mpr ⟨c.1, (mem_gcCandidates hc).1, rfl⟩)
  have hvals1 : ∀ c ∈ (gcAssignLoop (gcCandidates people target row act) row act).1,
      c.2 = Site.REMOTE ∨ c.2 = Site.OOO ∨ c.2 = Site.GC := by
    intro c hc
    rcases hmem1 c hc with h1 | h1
    · rcases hvals c h1 with h | h
      · exact Or.inl h
      · exact Or.inr (Or.inl h)
    · exact Or.inr (Or.inr h1.1)
  have hroster1 : ∀ c ∈ (gcAssignLoop (gcCandidates people target row act) row act).1,
      c.2 = Site.REMOTE → c.1 ∈ people.map Person.id := by
    intro c hc hR
    rcases hmem1 c hc with h1 | h1
    · refine hroster c h1 ?_
      rw [hR]
      exact fun he => Site.noConfusion he
    · rw [hR] at h1
      cases h1.1
  simp only [processDay]
  exact afterStep1_spec people target _ _ hids hWF1 hu1 hvals1 hroster1

/-- C3 as stated is false on the code: with a single-person roster and a
high GC share, step 1 places the one person at GC, and the step-1.5 floor
correction finds no still-open people to pull, so the day ends with GC
occupancy 1, outside {0} ∪ [3, 5]. -/
theorem C3_counterexample_gc_floor_unmet :
    ¬ ∀ e ∈ (generateSchedule [chars ("m")] [] []
        [⟨chars ("k"), chars ("K"), ⟨90, 5, 5⟩⟩]).plan,
        dayUsage e.2 Site.GC = 0 ∨ (3 ≤ dayUsage e.2 Site.GC ∧ dayUsage e.2 Site.GC ≤ 5) := by
  with_unfolding_all decide

/-- C3 amended: on every generated day, GC occupancy is at most the
capacity 5, and it is 0, or at least 3, or — when the floor correction ran
out of available people — every remaining person of the day is absent (the
row holds no ISSY and no REMOTE tag at all); on every day that is not an
all-hands day, Issy occupancy is never exactly 1. -/
theorem C3_amended_occupancy_invariant (monthDays bubbleLuxDates : List Day)
    (oooData : OOOData) (people : List Person)
    (hids : (people.map Person.id).Nodup) (hmd : monthDays.Nodup) :
    ∀ e ∈ (generateSchedule monthDays bubbleLuxDates oooData people).plan,
      dayUsage e.2 Site.GC ≤ SITES_GC_capacity ∧
      (dayUsage e.2 Site.GC = 0 ∨ 3 ≤ dayUsage e.2 Site.GC ∨
        (dayUsage e.2 Site.ISSY = 0 ∧ dayUsage e.2 Site.REMOTE = 0)) ∧
      (e.1 ∉ bubbleLuxDates → dayUsage e.2 Site.ISSY ≠ 1) := by
  intro e he
  simp only [generateSchedule] at he
  obtain ⟨e0, he0, heq1, hcase⟩ := runDays_entries _ _ e he
  rcases hcase with ⟨hbt, hrow⟩ | ⟨hbf, a, hrow⟩
  · have hvals2 := overlay2_vals monthDays bubbleLuxDates oooData people e0 he0
    have hGC0 : dayUsage e.2 Site.GC = 0 := by
      rw [hrow]
      apply dayUsage_eq_zero_of_vals
      intro c hc h
      rcases hvals2 c hc with h2 | h2 | h2 <;> rw [h] at h2 <;> cases h2
    refine ⟨by rw [hGC0]; simp, Or.inl hGC0, ?_⟩
    intro hnb
    exfalso
    apply hnb
    rw [heq1]
    exact List.mem_of_elem_eq_true hbt
  · have hOK := overlayOK monthDays bubbleLuxDates oooData people hids e0 he0
    have hkeys2 : (applyBubbleLux (applyOOO (initialPlan monthDays people) oooData)
        bubbleLuxDates people).map Prod.fst = monthDays := by
      rw [applyBubbleLux_keys, applyOOO_keys, initialPlan_keys]
    have hnd2 : ((applyBubbleLux (applyOOO (initialPlan monthDays people) oooData)
        bubbleLuxDates people).map Prod.fst).Nodup := by
      rw [hkeys2]
      exact hmd
    have hget2 : planGet (applyBubbleLux (applyOOO (initialPlan monthDays people) oooData)
        bubbleLuxDates people) e0.1 = some e0.2 :=
      planGet_of_mem hnd2 (by
        obtain ⟨a1, a2⟩ := e0
        exact he0)
    have hnb0 : e0.1 ∉ bubbleLuxDates := by
      intro hmemb
      have ht : bubbleLuxDates.contains e0.1 = true := List.elem_eq_true_of_mem hmemb
      rw [hbf] at ht
      cases ht
    have hget1 : planGet (applyOOO (initialPlan monthDays people) oooData) e0.1 =
        some e0.2 := by
      rw [← applyBubbleLux_get_notmem hnb0]
      exact hget2
    have hmem1 : (e0.1, e0.2) ∈ applyOOO (initialPlan monthDays people) oooData :=
      mem_of_planGet hget1
    have hinv := overlay1_inv monthDays oooData people (e0.1, e0.2) hmem1
    have hspec := processDay_spec people (targetDaysFor monthDays oooData) e0.2 a hids
      hOK.1 hinv.1 hinv.2
    rw [hrow]
    exact ⟨hspec.1, hspec.2.1, fun _ => hspec.2.2⟩

/-- Witness for the amended C3 on a concrete input with a BubbleLux day, an
absence and a three-person roster, instantiated at the first generated
row. -/
theorem C3_amended_occupancy_invariant_witness :
    dayUsage (((generateSchedule [chars ("m"), chars ("n")] [chars ("m")]
        [(chars ("a"), [chars ("n")])]
        [⟨chars ("a"), chars ("A"), ⟨0, 50, 50⟩⟩, ⟨chars ("b"), chars ("B"), ⟨90, 5, 5⟩⟩,
         ⟨chars ("c"), chars ("C"), ⟨50, 40, 10⟩⟩]).plan).headD ([], [])).2 Site.GC ≤ SITES_GC_capacity ∧
    (dayUsage (((generateSchedule [chars ("m"), chars ("n")] [chars ("m")]
        [(chars ("a"), [chars ("n")])]
        [⟨chars ("a"), chars ("A"), ⟨0, 50, 50⟩⟩, ⟨chars ("b"), chars ("B"), ⟨90, 5, 5⟩⟩,
         ⟨chars ("c"), chars ("C"), ⟨50, 40, 10⟩⟩]).plan).headD ([], [])).2 Site.GC = 0 ∨ 3 ≤ dayUsage (((generateSchedule [chars ("m"), chars ("n")] [chars ("m")]
        [(chars ("a"), [chars ("n")])]
        [⟨chars ("a"), chars ("A"), ⟨0, 50, 50⟩⟩, ⟨chars ("b"), chars ("B"), ⟨90, 5, 5⟩⟩,
         ⟨chars ("c"), chars ("C"), ⟨50, 40, 10⟩⟩]).plan).headD ([], [])).2 Site.GC ∨
      (dayUsage (((generateSchedule [chars ("m"), chars ("n")] [chars ("m")]
        [(chars ("a"), [chars ("n")])]
        [⟨chars ("a"), chars ("A"), ⟨0, 50, 50⟩⟩, ⟨chars ("b"), chars ("B"), ⟨90, 5, 5⟩⟩,
         ⟨chars ("c"), chars ("C"), ⟨50, 40, 10⟩⟩]).plan).headD ([], [])).2 Site.ISSY = 0 ∧ dayUsage (((generateSchedule [chars ("m"), chars ("n")] [chars ("m")]
        [(chars ("a"), [chars ("n")])]
        [⟨chars ("a"), chars ("A"), ⟨0, 50, 50⟩⟩, ⟨chars ("b"), chars ("B"), ⟨90, 5, 5⟩⟩,
         ⟨chars ("c"), chars ("C"), ⟨50, 40, 10⟩⟩]).plan).headD ([], [])).2 Site.REMOTE = 0)) ∧
    ((((generateSchedule [chars ("m"), chars ("n")] [chars ("m")]
        [(chars ("a"), [chars ("n")])]
        [⟨chars ("a"), chars ("A"), ⟨0, 50, 50⟩⟩, ⟨chars ("b"), chars ("B"), ⟨90, 5, 5⟩⟩,
         ⟨chars ("c"), chars ("C"), ⟨50, 40, 10⟩⟩]).plan).headD ([], [])).1 ∉ [chars ("m")] → dayUsage (((generateSchedule [chars ("m"), chars ("n")] [chars ("m")]
        [(chars ("a"), [chars ("n")])]
        [⟨chars ("a"), chars ("A"), ⟨0, 50, 50⟩⟩, ⟨chars ("b"), chars ("B"), ⟨90, 5, 5⟩⟩,
         ⟨chars ("c"), chars ("C"), ⟨50, 40, 10⟩⟩]).plan).headD ([], [])).2 Site.ISSY ≠ 1) :=
  C3_amended_occupancy_invariant [chars ("m"), chars ("n")] [chars ("m")]
    [(chars ("a"), [chars ("n")])]
    [⟨chars ("a"), chars ("A"), ⟨0, 50, 50⟩⟩, ⟨chars ("b"), chars ("B"), ⟨90, 5, 5⟩⟩,
     ⟨chars ("c"), chars ("C"), ⟨50, 40, 10⟩⟩] (by decide) (by decide)
    (((generateSchedule [chars ("m"), chars ("n")] [chars ("m")]
        [(chars ("a"), [chars ("n")])]
        [⟨chars ("a"), chars ("A"), ⟨0, 50, 50⟩⟩, ⟨chars ("b"), chars ("B"), ⟨90, 5, 5⟩⟩,
         ⟨chars ("c"), chars ("C"), ⟨50, 40, 10⟩⟩]).plan).headD ([], [])) (by with_unfolding_all decide)

/-- Claim C8 says the text import fails on a row whose person name matches
nobody in the roster. It does not: parseCSV only checks that at least two
non-blank lines exist; a data row with an unknown name is skipped silently
and the import succeeds with an empty plan. Here the single data row names
Zorro, who is not in the roster, yet parseCSV returns a result. -/
theorem C8_counterexample_unknown_name_still_succeeds :
    parseCSV (chars ("Person,d\nZorro,Issy")) [chars ("d")]
      [⟨chars ("b"), chars ("B"), ⟨70, 10, 20⟩⟩] ≠ none := by
  with_unfolding_all decide

/-- Amended C8: the text import fails exactly when the input has fewer than
two non-blank lines (a missing header or an empty body); rows with too few
columns or an unmatched person name are skipped, not failures. Failure is
atomic: when parseCSV fails, importCSV returns the prior state unchanged. -/
theorem C8_amended_failure_iff_short_input_and_atomic :
    (∀ (csvText : JSStr) (businessDays : List Day) (people : List Person),
        parseCSV csvText businessDays people = none ↔
          ((splitC ('\n') csvText).filter (fun l => !(trimC l).isEmpty)).length < 2) ∧
    (∀ (s : AppState) (csvText : JSStr) (businessDays : List Day) (people : List Person),
        parseCSV csvText businessDays people = none →
          importCSV s csvText businessDays people = s) := by
  constructor
  · intro csvText businessDays people
    rw [parseCSV]
    by_cases h :
        ((splitC ('\n') csvText).filter (fun l => !(trimC l).isEmpty)).length < 2
    · simp [h]
    · simp [h]
  · intro s csvText businessDays people h
    rw [importCSV, h]

/-- Witness for the amended C8 at a concrete input: a one-line file fails to
parse and the import leaves the state untouched. -/
theorem C8_amended_failure_iff_short_input_and_atomic_witness :
    importCSV ⟨chars ("2025-01"), [], [], [], []⟩ (chars ("only one line"))
        [chars ("d")] [] = ⟨chars ("2025-01"), [], [], [], []⟩ :=
  C8_amended_failure_iff_short_input_and_atomic.2
    ⟨chars ("2025-01"), [], [], [], []⟩ (chars ("only one line")) [chars ("d")] []
    (by decide)

/-! String lemmas: split and join are inverse on separator-free pieces,
trim detects blank lines, and substring containment distributes over
separator-joined pieces. These support the CSV round-trip claim. -/

theorem splitC_ne_nil (sep : Char) (s : JSStr) : splitC sep s ≠ [] := by
  cases s with
  | nil => simp [splitC]
  | cons c rest =>
    rw [splitC]
    split
    · split <;> simp
    · split <;> simp

theorem splitC_cons_sep (sep : Char) (t : JSStr) :
    splitC sep (sep :: t) = [] :: splitC sep t := by
  rw [splitC]
  cases hs : splitC sep t with
  | nil => exact absurd hs (splitC_ne_nil sep t)
  | cons h t' => simp

theorem splitC_no_sep {sep : Char} {s : JSStr} (h : sep ∉ s) : splitC sep s = [s] := by
  induction s with
  | nil => rfl
  | cons c rest ih =>
    have hc : c ≠ sep := fun he => h (he ▸ List.mem_cons_self c rest)
    have hrest : sep ∉ rest := fun hm => h (List.mem_cons_of_mem c hm)
    rw [splitC, ih hrest]
    simp [hc]

theorem splitC_append_sep {sep : Char} {t : JSStr} :
    ∀ {l : JSStr}, sep ∉ l → splitC sep (l ++ sep :: t) = l :: splitC sep t := by
  intro l
  induction l with
  | nil =>
    intro _
    simpa using splitC_cons_sep sep t
  | cons c l' ih =>
    intro h
    have hc : c ≠ sep := fun he => h (he ▸ List.mem_cons_self c l')
    have hl' : sep ∉ l' := fun hm => h (List.mem_cons_of_mem c hm)
    rw [List.cons_append, splitC, ih hl']
    simp [hc]

theorem splitC_joinC {sep : Char} :
    ∀ {ls : List JSStr}, ls ≠ [] → (∀ l ∈ ls, sep ∉ l) →
      splitC sep (joinC sep ls) = ls := by
  intro ls
  induction ls with
  | nil => intro hne _; exact absurd rfl hne
  | cons l ls' ih =>
    intro _ h
    cases ls' with
    | nil =>
      show splitC sep l = [l]
      exact splitC_no_sep (h l (List.mem_cons_self l []))
    | cons l2 ls'' =>
      show splitC sep (l ++ sep :: joinC sep (l2 :: ls'')) = l :: l2 :: ls''
      rw [splitC_append_sep (h l (List.mem_cons_self l _)),
        ih (List.cons_ne_nil l2 ls'') (fun x hx => h x (List.mem_cons_of_mem l hx))]

theorem mem_joinC {sep : Char} {x : Char} :
    ∀ {ls : List JSStr}, x ∈ joinC sep ls → x = sep ∨ ∃ l ∈ ls, x ∈ l := by
  intro ls
  induction ls with
  | nil => intro h; cases h
  | cons l ls' ih =>
    intro h
    cases ls' with
    | nil =>
      have h0 : x ∈ l := h
      exact Or.inr ⟨l, List.mem_cons_self l [], h0⟩
    | cons l2 ls'' =>
      have h0 : x ∈ l ++ sep :: joinC sep (l2 :: ls'') := h
      rcases List.mem_append.mp h0 with h1 | h1
      · exact Or.inr ⟨l, List.mem_cons_self l _, h1⟩
      · rcases List.mem_cons.mp h1 with h2 | h2
        · exact Or.inl h2
        · rcases ih h2 with h3 | ⟨l', hl', hx⟩
          · exact Or.inl h3
          · exact Or.inr ⟨l', List.mem_cons_of_mem l hl', hx⟩

theorem mem_joinC_head {sep : Char} {l : JSStr} {ls : List JSStr} {x : Char}
    (h : x ∈ l) : x ∈ joinC sep (l :: ls) := by
  cases ls with
  | nil => exact h
  | cons l2 ls' =>
    show x ∈ l ++ sep :: joinC sep (l2 :: ls')
    exact List.mem_append_left _ h

theorem sep_mem_joinC {sep : Char} (l1 l2 : JSStr) (ls : List JSStr) :
    sep ∈ joinC sep (l1 :: l2 :: ls) := by
  show sep ∈ l1 ++ sep :: joinC sep (l2 :: ls)
  exact List.mem_append_right _ (List.mem_cons_self sep _)

theorem all_ws_of_trimC_eq_nil {l : JSStr} (h : trimC l = []) :
    ∀ x ∈ l, isWS x = true := by
  rw [trimC, List.reverse_eq_nil_iff, List.dropWhile_eq_nil_iff] at h
  intro x hx
  by_cases hws : isWS x = true
  · exact hws
  · exfalso
    have hsplit : List.takeWhile isWS l ++ List.dropWhile isWS l = l :=
      List.takeWhile_append_dropWhile isWS l
    rw [← hsplit] at hx
    rcases List.mem_append.mp hx with h1 | h1
    · exact hws (List.mem_takeWhile_imp h1)
    · exact hws (h x (List.mem_reverse.mpr h1))

theorem trimC_eq_nil_of_all_ws {l : JSStr} (h : ∀ x ∈ l, isWS x = true) :
    trimC l = [] := by
  rw [trimC]
  have h1 : l.dropWhile isWS = [] := List.dropWhile_eq_nil_iff.mpr h
  rw [h1]
  rfl

theorem trimC_ne_nil_of_mem {l : JSStr} {x : Char} (hx : x ∈ l)
    (hws : isWS x = false) : trimC l ≠ [] := by
  intro h
  have := all_ws_of_trimC_eq_nil h x hx
  rw [hws] at this
  cases this

theorem exists_not_ws_of_trim_fixed {s : JSStr} (ht : trimC s = s) (hne : s ≠ []) :
    ∃ x ∈ s, isWS x = false := by
  by_contra h
  push_neg at h
  have hall : ∀ x ∈ s, isWS x = true := by
    intro x hx
    have := h x hx
    cases hb : isWS x with
    | false => exact absurd hb this
    | true => rfl
  have := trimC_eq_nil_of_all_ws hall
  rw [ht] at this
  exact hne this

theorem drop_eq_cons_succ {α : Type _} :
    ∀ (n : Nat) (l : List α) (a : α) (t : List α),
      l.drop n = a :: t → l.get? n = some a ∧ l.drop (n + 1) = t := by
  intro n
  induction n with
  | zero =>
    intro l a t h
    rw [List.drop_zero] at h
    subst h
    exact ⟨rfl, rfl⟩
  | succ m ih =>
    intro l a t h
    cases l with
    | nil => cases h
    | cons x l' =>
      have h' : l'.drop m = a :: t := h
      obtain ⟨h1, h2⟩ := ih l' a t h'
      exact ⟨h1, h2⟩

theorem jsStartsWith_iff :
    ∀ (pat s : JSStr), jsStartsWith s pat = true ↔ ∃ t, s = pat ++ t := by
  intro pat
  induction pat with
  | nil =>
    intro s
    constructor
    · intro _; exact ⟨s, rfl⟩
    · intro _; cases s <;> rfl
  | cons b p ih =>
    intro s
    cases s with
    | nil =>
      constructor
      · intro h; cases h
      · rintro ⟨t, ht⟩; cases ht
    | cons a s' =>
      rw [jsStartsWith, Bool.and_eq_true, decide_eq_true_eq, ih s']
      constructor
      · rintro ⟨rfl, t, rfl⟩
        exact ⟨t, rfl⟩
      · rintro ⟨t, ht⟩
        rw [List.cons_append] at ht
        injection ht with h1 h2
        exact ⟨h1, t, h2⟩

theorem jsIncludes_iff :
    ∀ (s pat : JSStr), jsIncludes s pat = true ↔ ∃ l1 l2, s = l1 ++ pat ++ l2 := by
  intro s
  induction s with
  | nil =>
    intro pat
    rw [jsIncludes]
    constructor
    · intro h
      have : pat = [] := by
        cases pat with
        | nil => rfl
        | cons b p => cases h
      exact ⟨[], [], by rw [this]; rfl⟩
    · rintro ⟨l1, l2, h⟩
      rw [List.append_assoc] at h
      have h1 : l1 = [] ∧ pat ++ l2 = [] := List.append_eq_nil.mp h.symm
      have h2 : pat = [] ∧ l2 = [] := List.append_eq_nil.mp h1.2
      rw [h2.1]
      rfl
  | cons c rest ih =>
    intro pat
    rw [jsIncludes, Bool.or_eq_true, jsStartsWith_iff pat, ih pat]
    constructor
    · rintro (⟨t, ht⟩ | ⟨l1, l2, h⟩)
      · exact ⟨[], t, by rw [ht]; rfl⟩
      · exact ⟨c :: l1, l2, by rw [h]; rfl⟩
    · rintro ⟨l1, l2, h⟩
      cases l1 with
      | nil =>
        exact Or.inl ⟨l2, by simpa using h⟩
      | cons a l1' =>
        rw [List.cons_append, List.cons_append] at h
        injection h with h1 h2
        exact Or.inr ⟨l1', l2, h2⟩

theorem prefix_avoid {c : Char} :
    ∀ {pat : JSStr}, c ∉ pat →
      ∀ {X Y t : JSStr}, X ++ c :: Y = pat ++ t → ∃ u, X = pat ++ u := by
  intro pat
  induction pat with
  | nil =>
    intro _ X Y t _
    exact ⟨X, rfl⟩
  | cons p pat' ih =>
    intro hc X Y t heq
    have hcp : c ∉ pat' := fun hm => hc (List.mem_cons_of_mem p hm)
    cases X with
    | nil =>
      rw [List.nil_append, List.cons_append] at heq
      injection heq with h1 h2
      exact absurd (h1 ▸ List.mem_cons_self p pat') hc
    | cons x X' =>
      rw [List.cons_append, List.cons_append] at heq
      injection heq with h1 h2
      obtain ⟨u, hu⟩ := ih hcp h2
      exact ⟨u, by rw [h1, hu, List.cons_append]⟩

theorem infix_append_avoid {c : Char} {pat : JSStr} (hc : c ∉ pat) :
    ∀ {X Y l1 l2 : JSStr}, X ++ c :: Y = l1 ++ pat ++ l2 →
      (∃ m1 m2, X = m1 ++ pat ++ m2) ∨ (∃ m1 m2, Y = m1 ++ pat ++ m2) := by
  intro X
  induction X with
  | nil =>
    intro Y l1 l2 heq
    rw [List.nil_append, List.append_assoc] at heq
    cases l1 with
    | nil =>
      rw [List.nil_append] at heq
      cases pat with
      | nil => exact Or.inl ⟨[], [], rfl⟩
      | cons p pat' =>
        rw [List.cons_append] at heq
        injection heq with h1 h2
        exact absurd (h1 ▸ List.mem_cons_self p pat') hc
    | cons a l1' =>
      rw [List.cons_append] at heq
      injection heq with h1 h2
      exact Or.inr ⟨l1', l2, by rw [h2, List.append_assoc]⟩
  | cons x X' ih =>
    intro Y l1 l2 heq
    cases l1 with
    | nil =>
      rw [List.nil_append] at heq
      have heq' : (x :: X') ++ c :: Y = pat ++ l2 := by
        rw [List.cons_append]
        exact heq
      obtain ⟨u, hu⟩ := prefix_avoid hc heq'
      exact Or.inl ⟨[], u, by rw [hu]; rfl⟩
    | cons a l1' =>
      rw [List.cons_append, List.append_assoc, List.cons_append] at heq
      injection heq with h1 h2
      rw [← List.append_assoc] at h2
      rcases ih h2 with ⟨m1, m2, hm⟩ | hr
      · exact Or.inl ⟨x :: m1, m2, by rw [hm, List.cons_append, List.cons_append]⟩
      · exact Or.inr hr

theorem not_includes_append_sep {c : Char} {pat X Y : JSStr} (hc : c ∉ pat)
    (hX : jsIncludes X pat = false) (hY : jsIncludes Y pat = false) :
    jsIncludes (X ++ c :: Y) pat = false := by
  cases hj : jsIncludes (X ++ c :: Y) pat with
  | false => rfl
  | true =>
    exfalso
    obtain ⟨l1, l2, heq⟩ := (jsIncludes_iff _ _).mp hj
    rcases infix_append_avoid hc heq with ⟨m1, m2, hm⟩ | ⟨m1, m2, hm⟩
    · have ht : jsIncludes X pat = true := (jsIncludes_iff X pat).mpr ⟨m1, m2, hm⟩
      rw [hX] at ht
      cases ht
    · have ht : jsIncludes Y pat = true := (jsIncludes_iff Y pat).mpr ⟨m1, m2, hm⟩
      rw [hY] at ht
      cases ht

theorem not_includes_joinC {sep : Char} {pat : JSStr} (hsep : sep ∉ pat)
    (hpat : pat ≠ []) :
    ∀ {ls : List JSStr}, (∀ l ∈ ls, jsIncludes l pat = false) →
      jsIncludes (joinC sep ls) pat = false := by
  intro ls
  induction ls with
  | nil =>
    intro _
    cases pat with
    | nil => exact absurd rfl hpat
    | cons p pat' => rfl
  | cons l ls' ih =>
    intro h
    cases ls' with
    | nil => exact h l (List.mem_cons_self l [])
    | cons l2 ls'' =>
      show jsIncludes (l ++ sep :: joinC sep (l2 :: ls'')) pat = false
      exact not_includes_append_sep hsep (h l (List.mem_cons_self l _))
        (ih (fun x hx => h x (List.mem_cons_of_mem l hx)))

/-! Cell-level facts about the import writes. -/

theorem planGet_append_left {pl1 pl2 : Plan} {d : Day} {row : Row}
    (h : planGet pl1 d = some row) : planGet (pl1 ++ pl2) d = some row := by
  induction pl1 with
  | nil => cases h
  | cons e rest ih =>
    rw [planGet] at h
    rw [List.cons_append, planGet]
    by_cases he : e.1 = d
    · rw [if_pos he] at h ⊢
      exact h
    · rw [if_neg he] at h ⊢
      exact ih h

theorem planGet_append_right {pl1 pl2 : Plan} {d : Day}
    (h : planGet pl1 d = none) : planGet (pl1 ++ pl2) d = planGet pl2 d := by
  induction pl1 with
  | nil => rfl
  | cons e rest ih =>
    rw [planGet] at h
    rw [List.cons_append, planGet]
    by_cases he : e.1 = d
    · rw [if_pos he] at h
      cases h
    · rw [if_neg he] at h ⊢
      exact ih h

theorem planGet_singleton_self (d : Day) (row : Row) :
    planGet [(d, row)] d = some row := by
  simp [planGet]

theorem planGet_singleton_ne {d d' : Day} (row : Row) (h : d' ≠ d) :
    planGet [(d, row)] d' = none := by
  have h2 : d ≠ d' := fun he => h he.symm
  simp [planGet, h2]

theorem planCell_setCellCreate_self (plan : Plan) (d : Day) (pid : PersonId)
    (s : Site) : planCell (planSetCellCreate plan d pid s) d pid = some s := by
  rw [planSetCellCreate]
  cases hg : planGet plan d with
  | some row =>
    rw [planCell, planGet_modify_self _ _ _, hg]
    show recordGet (recordSet row pid s) pid = some s
    exact recordGet_set_self row pid s
  | none =>
    rw [planCell, planGet_append_right hg, planGet_singleton_self]
    show recordGet (recordSet [] pid s) pid = some s
    exact recordGet_set_self [] pid s

theorem planCell_setCellCreate_ne {plan : Plan} {d : Day} {pid : PersonId}
    {s : Site} {d' : Day} {k : PersonId} (h : d' ≠ d ∨ k ≠ pid) :
    planCell (planSetCellCreate plan d pid s) d' k = planCell plan d' k := by
  rw [planSetCellCreate]
  cases hg : planGet plan d with
  | some row =>
    rcases h with hd | hk
    · rw [planCell, planGet_modify_ne _ _ hd, planCell]
    · by_cases hd : d' = d
      · subst hd
        rw [planCell, planGet_modify_self _ _ _, hg, planCell, hg]
        show recordGet (recordSet row pid s) k = recordGet row k
        exact recordGet_set_ne row s hk
      · rw [planCell, planGet_modify_ne _ _ hd, planCell]
  | none =>
    rcases h with hd | hk
    · cases hg2 : planGet plan d' with
      | none =>
        rw [planCell, planGet_append_right hg2, planGet_singleton_ne _ hd, planCell, hg2]
      | some row' =>
        rw [planCell, planGet_append_left hg2, planCell, hg2]
    · by_cases hd : d' = d
      · subst hd
        rw [planCell, planGet_append_right hg, planGet_singleton_self, planCell, hg]
        show recordGet (recordSet [] pid s) k = none
        rw [recordGet_set_ne [] s hk]
        rfl
      · cases hg2 : planGet plan d' with
        | none =>
          rw [planCell, planGet_append_right hg2, planGet_singleton_ne _ hd, planCell, hg2]
        | some row' =>
          rw [planCell, planGet_append_left hg2, planCell, hg2]

theorem applyPersonRow_spec (pid : PersonId) (f : Day → JSStr) :
    ∀ (days : List Day) (idx : Nat) (parts : List JSStr) (plan : Plan),
      parts.drop (idx + 1) = days.map f →
      days.Nodup →
      (∀ d ∈ days, planCell (applyPersonRow parts pid days idx plan) d pid =
        some (labelSite (f d))) ∧
      (∀ d k, (d ∉ days ∨ k ≠ pid) →
        planCell (applyPersonRow parts pid days idx plan) d k = planCell plan d k) := by
  intro days
  induction days with
  | nil =>
    intro idx parts plan _ _
    constructor
    · intro d hd; cases hd
    · intro d k _; rfl
  | cons day ds ih =>
    intro idx parts plan hdrop hnd
    rw [List.map_cons] at hdrop
    obtain ⟨hget, hdrop2⟩ := drop_eq_cons_succ (idx + 1) parts (f day) (ds.map f) hdrop
    have hstep : applyPersonRow parts pid (day :: ds) idx plan =
        applyPersonRow parts pid ds (idx + 1)
          (planSetCellCreate plan day pid (labelSite (f day))) := by
      rw [applyPersonRow, hget]
      rfl
    rw [hstep]
    have hd_notin : day ∉ ds := (List.nodup_cons.mp hnd).1
    have hnd' : ds.Nodup := (List.nodup_cons.mp hnd).2
    obtain ⟨ihc, ihf⟩ := ih (idx + 1) parts
      (planSetCellCreate plan day pid (labelSite (f day))) hdrop2 hnd'
    constructor
    · intro d hd
      rcases List.mem_cons.mp hd with h | hmem
      · subst h
        rw [ihf d pid (Or.inl hd_notin)]
        exact planCell_setCellCreate_self plan d pid (labelSite (f d))
      · exact ihc d hmem
    · intro d k hdk
      rcases hdk with hd | hk
      · have hd1 : d ≠ day := fun he => hd (List.mem_cons.mpr (Or.inl he))
        have hd2 : d ∉ ds := fun hm => hd (List.mem_cons.mpr (Or.inr hm))
        rw [ihf d k (Or.inl hd2)]
        exact planCell_setCellCreate_ne (Or.inl hd1)
      · rw [ihf d k (Or.inr hk)]
        exact planCell_setCellCreate_ne (Or.inr hk)

theorem find_first_by_name :
    ∀ {people : List Person}, (people.map Person.name).Nodup →
      ∀ {p : Person}, p ∈ people →
        people.find? (fun q => decide (q.name = p.name)) = some p := by
  intro people
  induction people with
  | nil => intro _ p hp; cases hp
  | cons q rest ih =>
    intro hnames p hp
    rw [List.map_cons, List.nodup_cons] at hnames
    by_cases hq : q.name = p.name
    · have hqp : q = p := by
        rcases List.mem_cons.mp hp with h | h
        · exact h.symm
        · exfalso
          apply hnames.1
          rw [hq]
          exact List.mem_map_of_mem Person.name h
      rw [List.find?_cons]
      have hd : decide (q.name = p.name) = true := decide_eq_true hq
      rw [hd]
      show some q = some p
      rw [hqp]
    · rw [List.find?_cons]
      have hd : decide (q.name = p.name) = false := decide_eq_false hq
      rw [hd]
      show List.find? (fun q2 => decide (q2.name = p.name)) rest = some p
      apply ih hnames.2
      rcases List.mem_cons.mp hp with h | h
      · exact absurd (show q.name = p.name by rw [h]) hq
      · exact h

theorem parseRows_cons (businessDays : List Day) (people : List Person)
    (line : JSStr) (rest : List JSStr) (plan : Plan) :
    parseRows businessDays people (line :: rest) plan =
      if jsIncludes line (chars ("BubbleLux")) || !(line.contains (',')) then plan
      else if (splitC (',') line).length < 2 then
        parseRows businessDays people rest plan
      else
        match people.find?
            (fun q => decide (q.name = trimC ((splitC (',') line).headD []))) with
        | none => parseRows businessDays people rest plan
        | some person =>
          parseRows businessDays people rest
            (applyPersonRow (splitC (',') line) person.id businessDays 0 plan) := by
  rw [parseRows]

theorem parseRows_processes (businessDays : List Day) (people : List Person)
    (hbd : businessDays ≠ []) (hbdnd : businessDays.Nodup)
    (rowOf : Person → JSStr) (lab : Person → Day → JSStr) :
    ∀ (ps : List Person) (tailLines : List JSStr) (plan : Plan),
      (∀ p ∈ ps, splitC (',') (rowOf p) = p.name :: businessDays.map (lab p)) →
      (∀ p ∈ ps, jsIncludes (rowOf p) (chars ("BubbleLux")) = false) →
      (∀ p ∈ ps, (rowOf p).contains (',') = true) →
      (∀ p ∈ ps, trimC p.name = p.name) →
      (∀ p ∈ ps, people.find? (fun q => decide (q.name = p.name)) = some p) →
      ((ps.map Person.id).Nodup) →
      (∀ plan2 : Plan, parseRows businessDays people tailLines plan2 = plan2) →
      (∀ d ∈ businessDays, ∀ p ∈ ps,
        planCell (parseRows businessDays people (ps.map rowOf ++ tailLines) plan)
            d p.id = some (labelSite (lab p d))) ∧
      (∀ d k, (∀ p ∈ ps, k ≠ p.id) →
        planCell (parseRows businessDays people (ps.map rowOf ++ tailLines) plan)
            d k = planCell plan d k) := by
  intro ps
  induction ps with
  | nil =>
    intro tailLines plan _ _ _ _ _ _ htail
    rw [List.map_nil, List.nil_append]
    constructor
    · intro d _ p hp
      cases hp
    · intro d k _
      rw [htail plan]
  | cons p ps' ih =>
    intro tailLines plan hsplit hinc hcomma htrim hfind hidnd htail
    have hmemh : p ∈ p :: ps' := List.mem_cons_self p ps'
    have hmemtl : ∀ q ∈ ps', q ∈ p :: ps' := fun q hq => List.mem_cons_of_mem p hq
    rw [List.map_cons, List.nodup_cons] at hidnd
    have hlen : ¬((p.name :: businessDays.map (lab p)).length < 2) := by
      rw [List.length_cons, List.length_map]
      have h0 : businessDays.length ≠ 0 := fun h => hbd (List.length_eq_zero.mp h)
      omega
    have hcond : (jsIncludes (rowOf p) (chars ("BubbleLux")) ||
        !((rowOf p).contains (','))) = false := by
      rw [hinc p hmemh, hcomma p hmemh]
      rfl
    have hstep : parseRows businessDays people ((p :: ps').map rowOf ++ tailLines) plan =
        parseRows businessDays people (ps'.map rowOf ++ tailLines)
          (applyPersonRow (p.name :: businessDays.map (lab p)) p.id businessDays 0 plan) := by
      rw [List.map_cons, List.cons_append, parseRows_cons, hcond,
        if_neg Bool.false_ne_true, hsplit p hmemh, if_neg hlen]
      simp only [List.headD_cons]
      have hfind2 : people.find? (fun q => decide (q.name = trimC p.name)) = some p := by
        rw [htrim p hmemh]
        exact hfind p hmemh
      rw [hfind2]
    rw [hstep]
    have hdrop : (p.name :: businessDays.map (lab p)).drop (0 + 1) =
        businessDays.map (lab p) := rfl
    obtain ⟨apc, apf⟩ := applyPersonRow_spec p.id (lab p) businessDays 0
      (p.name :: businessDays.map (lab p)) plan hdrop hbdnd
    obtain ⟨ihc, ihf⟩ := ih tailLines
      (applyPersonRow (p.name :: businessDays.map (lab p)) p.id businessDays 0 plan)
      (fun q hq => hsplit q (hmemtl q hq)) (fun q hq => hinc q (hmemtl q hq))
      (fun q hq => hcomma q (hmemtl q hq)) (fun q hq => htrim q (hmemtl q hq))
      (fun q hq => hfind q (hmemtl q hq)) hidnd.2 htail
    constructor
    · intro d hd q hq
      rcases List.mem_cons.mp hq with h | hq'
      · subst h
        have hne : ∀ q2 ∈ ps', q.id ≠ q2.id := by
          intro q2 hq2 he
          apply hidnd.1
          rw [he]
          exact List.mem_map_of_mem Person.id hq2
        rw [ihf d q.id hne]
        exact apc d hd
      · exact ihc d hd q hq'
    · intro d k hk
      rw [ihf d k (fun q hq => hk q (hmemtl q hq))]
      exact apf d k (Or.inr (hk p hmemh))

theorem siteLabel_no_comma : ∀ s : Site, (',') ∉ siteLabel s := by
  intro s
  cases s <;> decide

theorem siteLabel_no_newline : ∀ s : Site, ('\n') ∉ siteLabel s := by
  intro s
  cases s <;> decide

theorem siteLabel_no_bubble :
    ∀ s : Site, jsIncludes (siteLabel s) (chars ("BubbleLux")) = false := by
  intro s
  cases s <;> decide

theorem labelSite_siteLabel :
    ∀ s : Site, labelSite (siteLabel s) = reimportedTag s := by
  intro s
  cases s <;> decide

theorem nonblank_of_trim_ne {l : JSStr} (h : trimC l ≠ []) :
    (!(trimC l).isEmpty) = true := by
  cases he : trimC l with
  | nil => exact absurd he h
  | cons a t => rfl

theorem nonblank_of_mem {l : JSStr} {x : Char} (hx : x ∈ l) (hws : isWS x = false) :
    (!(trimC l).isEmpty) = true :=
  nonblank_of_trim_ne (trimC_ne_nil_of_mem hx hws)

theorem parseCSV_eq (csvText : JSStr) (businessDays : List Day)
    (people : List Person) :
    parseCSV csvText businessDays people =
      if ((splitC ('\n') csvText).filter (fun l => !(trimC l).isEmpty)).length < 2 then
        none
      else some
        { plan := parseRows businessDays people
            (((splitC ('\n') csvText).filter (fun l => !(trimC l).isEmpty)).drop 1) [],
          bubbleLux := [],
          days := businessDays } := rfl

theorem parseRows_bubble_line (businessDays : List Day) (people : List Person)
    (junk : List JSStr) (plan : Plan) :
    parseRows businessDays people (chars ("BubbleLux Days:") :: junk) plan = plan := by
  rw [parseRows_cons,
    show jsIncludes (chars ("BubbleLux Days:")) (chars ("BubbleLux")) = true from by decide,
    Bool.true_or, if_pos rfl]

/-- Claim C9: export/import round trip. Exporting any application state to
the text format and re-importing it against the same roster and business-day
set succeeds, keeps the same business days, and reproduces every cell up to
the documented loss: GC and ISSY tags survive exactly, while REMOTE stays
REMOTE and OOO collapses to REMOTE (both are printed as the Remote label).
The hypotheses state well-formedness of the roster and labels: nonempty
roster, distinct names and ids, names that are trimmed, nonempty, free of
commas, newlines and the BubbleLux marker, and day labels free of
newlines. -/
theorem C9_export_import_round_trip (state : AppState) (businessDays : List Day)
    (people : List Person)
    (hppl : people ≠ [])
    (hbdnd : businessDays.Nodup)
    (hnames : (people.map Person.name).Nodup)
    (hids : (people.map Person.id).Nodup)
    (htrimn : ∀ p ∈ people, trimC p.name = p.name)
    (hnamene : ∀ p ∈ people, p.name ≠ [])
    (hnamec : ∀ p ∈ people, (',') ∉ p.name)
    (hnamen : ∀ p ∈ people, ('\n') ∉ p.name)
    (hnameb : ∀ p ∈ people, jsIncludes p.name (chars ("BubbleLux")) = false)
    (hdayn : ∀ d ∈ businessDays, ('\n') ∉ dayHeaderLabel d)
    (hbln : ∀ d ∈ (List.lookup state.monthISO state.bubbleLux).getD [], ('\n') ∉ dayFullLabel d) :
    ∃ res : ImportResult,
      parseCSV (generateCSV state businessDays people) businessDays people = some res ∧
      res.days = businessDays ∧
      ∀ d ∈ businessDays, ∀ p ∈ people,
        planCell res.plan d p.id =
          some (reimportedTag ((planCell state.plan d p.id).getD Site.REMOTE)) := by
  have hgen : generateCSV state businessDays people =
      joinC ('\n') ((joinC (',') ((chars ("Person")) :: businessDays.map dayHeaderLabel) :: people.map (fun person => joinC (',') (person.name :: businessDays.map (fun day => siteLabel ((planCell state.plan day person.id).getD Site.REMOTE))))) ++ (if 0 < ((List.lookup state.monthISO state.bubbleLux).getD []).length then [[], chars ("BubbleLux Days:")] ++ ((List.lookup state.monthISO state.bubbleLux).getD []).map dayFullLabel else [])) := rfl
  have hnlHDR : ('\n') ∉ joinC (',') ((chars ("Person")) :: businessDays.map dayHeaderLabel) := by
    intro hx
    rcases mem_joinC hx with h | ⟨l, hl, hxl⟩
    · exact absurd h (by decide)
    · rcases List.mem_cons.mp hl with h1 | h1
      · subst h1
        exact absurd hxl (by decide)
      · obtain ⟨d, hd, hdl⟩ := List.mem_map.mp h1
        rw [← hdl] at hxl
        exact hdayn d hd hxl
  have hnlROW : ∀ p ∈ people, ('\n') ∉ (fun person => joinC (',') (person.name :: businessDays.map (fun day => siteLabel ((planCell state.plan day person.id).getD Site.REMOTE)))) p := by
    intro p hp hx
    have hx2 : ('\n') ∈ joinC (',') (p.name :: businessDays.map (fun day => siteLabel ((planCell state.plan day p.id).getD Site.REMOTE))) := hx
    rcases mem_joinC hx2 with h | ⟨l, hl, hxl⟩
    · exact absurd h (by decide)
    · rcases List.mem_cons.mp hl with h1 | h1
      · subst h1
        exact hnamen p hp hxl
      · obtain ⟨dd, hdd, hdl⟩ := List.mem_map.mp h1
        rw [← hdl] at hxl
        exact siteLabel_no_newline _ hxl
  have hnlTL : ∀ l ∈ (if 0 < ((List.lookup state.monthISO state.bubbleLux).getD []).length then [[], chars ("BubbleLux Days:")] ++ ((List.lookup state.monthISO state.bubbleLux).getD []).map dayFullLabel else []), ('\n') ∉ l := by
    intro l hl
    by_cases hmb : 0 < ((List.lookup state.monthISO state.bubbleLux).getD []).length
    · rw [if_pos hmb] at hl
      rcases List.mem_append.mp hl with h1 | h1
      · rcases List.mem_cons.mp h1 with h2 | h2
        · subst h2
          intro hx
          cases hx
        · rcases List.mem_cons.mp h2 with h3 | h3
          · subst h3
            exact by decide
          · cases h3
      · obtain ⟨d, hd, hdl⟩ := List.mem_map.mp h1
        rw [← hdl]
        exact hbln d hd
    · rw [if_neg hmb] at hl
      cases hl
  have hsplitall : splitC ('\n') (generateCSV state businessDays people) =
      (joinC (',') ((chars ("Person")) :: businessDays.map dayHeaderLabel) :: people.map (fun person => joinC (',') (person.name :: businessDays.map (fun day => siteLabel ((planCell state.plan day person.id).getD Site.REMOTE))))) ++ (if 0 < ((List.lookup state.monthISO state.bubbleLux).getD []).length then [[], chars ("BubbleLux Days:")] ++ ((List.lookup state.monthISO state.bubbleLux).getD []).map dayFullLabel else []) := by
    rw [hgen]
    apply splitC_joinC (by simp)
    intro l hl
    rcases List.mem_append.mp hl with h1 | h1
    · rcases List.mem_cons.mp h1 with h2 | h2
      · subst h2
        exact hnlHDR
      · obtain ⟨p, hp, hdl⟩ := List.mem_map.mp h2
        rw [← hdl]
        exact hnlROW p hp
    · exact hnlTL l h1
  obtain ⟨tailK, htailfilter, htailK⟩ :
      ∃ tk : List JSStr,
        (if 0 < ((List.lookup state.monthISO state.bubbleLux).getD []).length then [[], chars ("BubbleLux Days:")] ++ ((List.lookup state.monthISO state.bubbleLux).getD []).map dayFullLabel else []).filter (fun l => !(trimC l).isEmpty) = tk ∧
        ∀ plan2 : Plan, parseRows businessDays people tk plan2 = plan2 := by
    by_cases hmb : 0 < ((List.lookup state.monthISO state.bubbleLux).getD []).length
    · refine ⟨chars ("BubbleLux Days:") ::
        (((List.lookup state.monthISO state.bubbleLux).getD []).map dayFullLabel).filter (fun l => !(trimC l).isEmpty), ?_, ?_⟩
      · rw [if_pos hmb, List.filter_append,
          show ([([] : JSStr), chars ("BubbleLux Days:")]).filter
              (fun l => !(trimC l).isEmpty) = [chars ("BubbleLux Days:")] from by decide]
        rfl
      · intro plan2
        exact parseRows_bubble_line businessDays people _ plan2
    · refine ⟨[], ?_, ?_⟩
      · rw [if_neg hmb]
        rfl
      · intro plan2
        rfl
  have hHDRK : (!(trimC (joinC (',') ((chars ("Person")) :: businessDays.map dayHeaderLabel))).isEmpty) = true := by
    exact nonblank_of_mem
      (mem_joinC_head (show ('P') ∈ chars ("Person") from by decide)) (by decide)
  have hrowsK : (people.map (fun person => joinC (',') (person.name :: businessDays.map (fun day => siteLabel ((planCell state.plan day person.id).getD Site.REMOTE))))).filter (fun l => !(trimC l).isEmpty) =
      people.map (fun person => joinC (',') (person.name :: businessDays.map (fun day => siteLabel ((planCell state.plan day person.id).getD Site.REMOTE)))) := by
    rw [List.filter_eq_self]
    intro l hl
    obtain ⟨p, hp, hdl⟩ := List.mem_map.mp hl
    rw [← hdl]
    obtain ⟨x, hx, hxws⟩ := exists_not_ws_of_trim_fixed (htrimn p hp) (hnamene p hp)
    exact nonblank_of_mem (mem_joinC_head hx) hxws
  have hlines : (splitC ('\n') (generateCSV state businessDays people)).filter
      (fun l => !(trimC l).isEmpty) = joinC (',') ((chars ("Person")) :: businessDays.map dayHeaderLabel) :: (people.map (fun person => joinC (',') (person.name :: businessDays.map (fun day => siteLabel ((planCell state.plan day person.id).getD Site.REMOTE)))) ++ tailK) := by
    rw [hsplitall, List.filter_append,
      show (joinC (',') ((chars ("Person")) :: businessDays.map dayHeaderLabel) :: people.map (fun person => joinC (',') (person.name :: businessDays.map (fun day => siteLabel ((planCell state.plan day person.id).getD Site.REMOTE))))).filter (fun l => !(trimC l).isEmpty) =
        joinC (',') ((chars ("Person")) :: businessDays.map dayHeaderLabel) :: people.map (fun person => joinC (',') (person.name :: businessDays.map (fun day => siteLabel ((planCell state.plan day person.id).getD Site.REMOTE)))) from by
        rw [List.filter_cons]
        simp [hHDRK, hrowsK],
      htailfilter, List.cons_append]
  have hlen2 : ¬((joinC (',') ((chars ("Person")) :: businessDays.map dayHeaderLabel) :: (people.map (fun person => joinC (',') (person.name :: businessDays.map (fun day => siteLabel ((planCell state.plan day person.id).getD Site.REMOTE)))) ++ tailK)).length < 2) := by
    rw [List.length_cons, List.length_append, List.length_map]
    have h0 : people.length ≠ 0 := fun h => hppl (List.length_eq_zero.mp h)
    omega
  have hsome : parseCSV (generateCSV state businessDays people) businessDays people =
      some { plan := parseRows businessDays people (people.map (fun person => joinC (',') (person.name :: businessDays.map (fun day => siteLabel ((planCell state.plan day person.id).getD Site.REMOTE)))) ++ tailK) [],
             bubbleLux := [], days := businessDays } := by
    rw [parseCSV_eq, hlines, if_neg hlen2]
    rfl
  refine ⟨{ plan := parseRows businessDays people (people.map (fun person => joinC (',') (person.name :: businessDays.map (fun day => siteLabel ((planCell state.plan day person.id).getD Site.REMOTE)))) ++ tailK) [],
            bubbleLux := [], days := businessDays }, hsome, rfl, ?_⟩
  intro d hd p hp
  by_cases hbd : businessDays = []
  · rw [hbd] at hd
    cases hd
  · have h1 : ∀ q ∈ people, splitC (',')
        (joinC (',') (q.name :: businessDays.map (fun day => siteLabel ((planCell state.plan day q.id).getD Site.REMOTE)))) =
        q.name :: businessDays.map (fun day => siteLabel ((planCell state.plan day q.id).getD Site.REMOTE)) := by
      intro q hq
      apply splitC_joinC (List.cons_ne_nil _ _)
      intro l hl
      rcases List.mem_cons.mp hl with h2 | h2
      · subst h2
        exact hnamec q hq
      · obtain ⟨dd, hdd, hdl⟩ := List.mem_map.mp h2
        rw [← hdl]
        exact siteLabel_no_comma _
    have h2 : ∀ q ∈ people, jsIncludes
        (joinC (',') (q.name :: businessDays.map (fun day => siteLabel ((planCell state.plan day q.id).getD Site.REMOTE)))) (chars ("BubbleLux")) =
        false := by
      intro q hq
      apply not_includes_joinC (by decide) (by decide)
      intro l hl
      rcases List.mem_cons.mp hl with h3 | h3
      · subst h3
        exact hnameb q hq
      · obtain ⟨dd, hdd, hdl⟩ := List.mem_map.mp h3
        rw [← hdl]
        exact siteLabel_no_bubble _
    have h3 : ∀ q ∈ people,
        (joinC (',') (q.name :: businessDays.map (fun day => siteLabel ((planCell state.plan day q.id).getD Site.REMOTE)))).contains (',') = true := by
      intro q hq
      obtain ⟨d0, ds0, hbd2⟩ : ∃ d0 ds0, businessDays = d0 :: ds0 := by
        cases businessDays with
        | nil => exact absurd rfl hbd
        | cons a b => exact ⟨a, b, rfl⟩
      have hmem : (',') ∈ joinC (',') (q.name :: businessDays.map (fun day => siteLabel ((planCell state.plan day q.id).getD Site.REMOTE))) := by
        rw [hbd2, List.map_cons]
        exact sep_mem_joinC _ _ _
      exact List.elem_eq_true_of_mem hmem
    have h5 : ∀ q ∈ people,
        people.find? (fun q2 => decide (q2.name = q.name)) = some q :=
      fun q hq => find_first_by_name hnames hq
    obtain ⟨content, _⟩ := parseRows_processes businessDays people hbd hbdnd
      (fun person => joinC (',') (person.name :: businessDays.map (fun day => siteLabel ((planCell state.plan day person.id).getD Site.REMOTE)))) (fun person => fun day => siteLabel ((planCell state.plan day person.id).getD Site.REMOTE)) people tailK []
      h1 h2 h3 htrimn h5 hids htailK
    have hc := content d hd p hp
    exact hc.trans (congrArg Option.some (labelSite_siteLabel _))

/-- Witness for C9 on a concrete two-person, two-day state with a BubbleLux
trailer: the re-import succeeds and reproduces GC and ISSY while collapsing
OOO to REMOTE. -/
theorem C9_export_import_round_trip_witness :
    ∃ res : ImportResult,
      parseCSV (generateCSV
          ⟨chars ("2025-01"), [(chars ("2025-01"), [chars ("bb")])],
            [(chars ("d1"), [(chars ("a"), Site.GC), (chars ("b"), Site.OOO)]),
             (chars ("d2"), [(chars ("a"), Site.ISSY)])], [], []⟩
          [chars ("d1"), chars ("d2")]
          [⟨chars ("a"), chars ("Alice"), ⟨50, 30, 20⟩⟩,
           ⟨chars ("b"), chars ("Bob"), ⟨40, 40, 20⟩⟩])
        [chars ("d1"), chars ("d2")]
        [⟨chars ("a"), chars ("Alice"), ⟨50, 30, 20⟩⟩,
         ⟨chars ("b"), chars ("Bob"), ⟨40, 40, 20⟩⟩] = some res ∧
      res.days = [chars ("d1"), chars ("d2")] ∧
      ∀ d ∈ [chars ("d1"), chars ("d2")],
        ∀ p ∈ [⟨chars ("a"), chars ("Alice"), ⟨50, 30, 20⟩⟩,
               (⟨chars ("b"), chars ("Bob"), ⟨40, 40, 20⟩⟩ : Person)],
          planCell res.plan d p.id =
            some (reimportedTag ((planCell
              [(chars ("d1"), [(chars ("a"), Site.GC), (chars ("b"), Site.OOO)]),
               (chars ("d2"), [(chars ("a"), Site.ISSY)])] d p.id).getD Site.REMOTE)) :=
  C9_export_import_round_trip
    ⟨chars ("2025-01"), [(chars ("2025-01"), [chars ("bb")])],
      [(chars ("d1"), [(chars ("a"), Site.GC), (chars ("b"), Site.OOO)]),
       (chars ("d2"), [(chars ("a"), Site.ISSY)])], [], []⟩
    [chars ("d1"), chars ("d2")]
    [⟨chars ("a"), chars ("Alice"), ⟨50, 30, 20⟩⟩,
     ⟨chars ("b"), chars ("Bob"), ⟨40, 40, 20⟩⟩]
    (by decide) (by decide) (by decide) (by decide) (by decide) (by decide)
    (by decide) (by decide) (by decide) (by decide) (by decide)
